import Mathlib

/-! Verification of the ironwood routing core: spanning-tree election, greedy
lookups, signed path records, their wire format, and the nonce counter.

A shallow embedding of `net/dhtree.go` and of the nonce methods of
`encrypted/crypto.go`.  Byte slices are lists of naturals,
Go maps are association lists (their iteration order is the list order, and
theorems about "any iteration order" quantify over permutations), and every
run-time fault of the Go code (index out of range, slice bound out of range,
nil dereference) is the value `none`.
-/

set_option autoImplicit false

/-! ## Keys -/

/-- A public key is a byte slice (`type publicKey []byte`). -/
abbrev publicKey := List Nat

/-- A signature is a byte slice. -/
abbrev signature := List Nat

/-- The function `treeLess` of `dhtree.go`: walk the indices of `key1`, reading
`key2` at the same index.  Reading past the end of `key2` faults. -/
def treeLess : publicKey → publicKey → Option Bool
  | [], _ => some false
  | _ :: _, [] => none
  | x :: xs, y :: ys =>
    if x < y then some true
    else if x > y then some false
    else treeLess xs ys

/-- The function `dhtOrdered` of `dhtree.go`: the three comparisons are all
evaluated first, then the three cases of the switch are tried in order. -/
def dhtOrdered (first second third : publicKey) : Option Bool := do
  let less12 ← treeLess first second
  let less23 ← treeLess second third
  let less31 ← treeLess third first
  if less12 && less23 then pure true
  else if less23 && less31 then pure true
  else if less31 && less12 then pure true
  else pure false

/-! ## Signed path records -/

/-- One hop of a path: `treeHop`. -/
structure treeHop where
  next : publicKey
  sig : signature
  deriving DecidableEq, Repr

/-- A path claim: `treeInfo`. -/
structure treeInfo where
  root : publicKey
  hops : List treeHop
  deriving DecidableEq, Repr

/-- A key-space path segment: `dhtInfo`. -/
structure dhtInfo where
  source : publicKey
  prev : publicKey
  next : publicKey
  dest : publicKey
  deriving DecidableEq, Repr

/-- The element `hops[len(hops)-2].next`, when there are at least two hops. -/
def secondToLast : List treeHop → Option publicKey
  | [] => none
  | [_] => none
  | [h, _] => some h.next
  | _ :: h :: h2 :: rest => secondToLast (h :: h2 :: rest)

/-- The method `treeInfo.from`: the root unless there are at least two hops, in
which case it is the key of the second to last hop. -/
def treeInfo.from_ (info : treeInfo) : publicKey :=
  match secondToLast info.hops with
  | some key => key
  | none => info.root

/-- The loop of `treeInfo.checkLoops`; `keys` holds the keys already marked in
the Go map. -/
def checkLoopsFrom (key : publicKey) (keys : List publicKey) : List treeHop → Bool
  | [] => !(decide (key ∈ keys))
  | hop :: rest =>
    if key ∈ keys then false
    else checkLoopsFrom hop.next (key :: keys) rest

/-- The method `treeInfo.checkLoops`. -/
def treeInfo.checkLoops (info : treeInfo) : Bool :=
  checkLoopsFrom info.root [] info.hops

/-- The value `int(^(uint(0)) >> 1)` on a 64-bit platform. -/
def maxInt : Int := 2 ^ 63 - 1

/-- The loop of `treeInfo.dist`: `idx` is the running index, the last argument
the current `lcaIdx`.  The loop ranges over the shorter list `a`, so `b` is
never exhausted first. -/
def lastCommonIdx : List treeHop → List treeHop → Int → Int → Int
  | x :: xs, y :: ys, idx, lcaIdx =>
    if x.next ≠ y.next then lcaIdx else lastCommonIdx xs ys (idx + 1) idx
  | _, _, _, lcaIdx => lcaIdx

/-- The method `treeInfo.dist`.  Slice lengths are far below `2^62` on any
machine, so the final sum is computed without wrap-around. -/
def treeInfo.dist (info dest : treeInfo) : Int :=
  if info.root ≠ dest.root then maxInt
  else
    let a := if dest.hops.length < info.hops.length then dest.hops else info.hops
    let b := if dest.hops.length < info.hops.length then info.hops else dest.hops
    let lcaIdx := lastCommonIdx a b 0 (-1)
    (a.length : Int) + (b.length : Int) - 2 * lcaIdx

/-- Strict lexicographic order on byte lists, as a total Boolean function. -/
def lexLt : List Nat → List Nat → Bool
  | [], _ => false
  | _ :: _, [] => false
  | x :: xs, y :: ys => decide (x < y) || (decide (x = y) && lexLt xs ys)

/-- The slice expression `hops[:len(hops)-1]`; on an empty slice the upper
bound is `-1` and the expression faults. -/
def stripLast : List treeHop → Option (List treeHop)
  | [] => none
  | h :: hs => some (List.dropLast (h :: hs))

/-! ## The actor -/

/-- The state of the `dhtree` actor.  `corePublicKey` is `t.core.crypto.publicKey`;
the maps are association lists in iteration order; `self` is a pointer, `none`
when nil. -/
structure dhtree where
  corePublicKey : publicKey
  tinfos : List (publicKey × treeInfo)
  dinfos : List (publicKey × dhtInfo)
  self : Option treeInfo
  deriving DecidableEq, Repr

/-- The map assignment `m[key] = v`. -/
def mapSet {β : Type} (m : List (publicKey × β)) (key : publicKey) (v : β) :
    List (publicKey × β) :=
  if m.any (fun p => decide (p.1 = key)) then
    m.map (fun p => if p.1 = key then (key, v) else p)
  else m ++ [(key, v)]

/-- The map deletion `delete(m, key)`. -/
def mapDelete {β : Type} (m : List (publicKey × β)) (key : publicKey) :
    List (publicKey × β) :=
  m.filter (fun p => decide (p.1 ≠ key))

/-- The method `dhtree.init`. -/
def dhtree.init (pk : publicKey) : dhtree :=
  { corePublicKey := pk, tinfos := [], dinfos := [],
    self := some { root := pk, hops := [] } }

/-- One iteration of the loop of `_fix`: the switch over `info`, with `self` the
current `t.self`.  The cases are tried in source order, so a comparison is only
evaluated when the earlier cases have failed. -/
def fixStep (self info : treeInfo) : Option treeInfo :=
  if !info.checkLoops then some self
  else
    (treeLess self.root info.root).bind fun betterRoot =>
    if betterRoot then some info
    else
      (treeLess info.root self.root).bind fun worseRoot =>
      if worseRoot then some self
      else if info.hops.length < self.hops.length then some info
      else if info.hops.length > self.hops.length then some self
      else
        (treeLess self.from_ info.from_).bind fun higherParent =>
        if higherParent then some info else some self

/-- The candidate `_fix` starts from: the degenerate record when `self` is nil or
its root is below the local key, otherwise `self`. -/
def fixStart (t : dhtree) : Option treeInfo :=
  match t.self with
  | none => some { root := t.corePublicKey, hops := [] }
  | some s =>
    (treeLess s.root t.corePublicKey).bind fun below =>
    if below then some { root := t.corePublicKey, hops := [] } else some s

/-- The method `dhtree._fix`.  The final `sendTree` call only notifies the peers
and leaves the actor state alone, so it is not part of the state transformer. -/
def dhtree._fix (t : dhtree) : Option dhtree :=
  (fixStart t).bind fun start =>
  (List.foldlM fixStep start (t.tinfos.map Prod.snd)).bind fun best =>
  some { t with self := some best }

/-- The handler of `dhtree.update`, with the iteration order of the map made
explicit: `order` lists the entries of `t.tinfos` after the assignment
`t.tinfos[key] = info`, in the order in which the loop of `_fix` will range over
them (Go leaves the iteration order of a map unspecified). -/
def dhtree.updateIn (t : dhtree) (info : treeInfo) (order : List (publicKey × treeInfo)) :
    Option dhtree :=
  let key := info.from_
  match t.self with
  | none => none
  | some s =>
    dhtree._fix { t with tinfos := order, self := if key = s.from_ then none else some s }

/-- The handler of `dhtree.update`, the map being iterated in stored order. -/
def dhtree.update (t : dhtree) (info : treeInfo) : Option dhtree :=
  t.updateIn info (mapSet t.tinfos info.from_ info)

/-- The handler of `dhtree.remove`, with the iteration order of the map made
explicit: `order` lists the entries of `t.tinfos` after `delete(t.tinfos, key)`. -/
def dhtree.removeIn (t : dhtree) (info : treeInfo) (order : List (publicKey × treeInfo)) :
    Option dhtree :=
  let key := info.from_
  match t.self with
  | none => none
  | some s =>
    if key = s.from_ then dhtree._fix { t with tinfos := order, self := none }
    else some { t with tinfos := order }

/-- The handler of `dhtree.remove`, the map being iterated in stored order. -/
def dhtree.remove (t : dhtree) (info : treeInfo) : Option dhtree :=
  t.removeIn info (mapDelete t.tinfos info.from_)

/-- One iteration of the loop of `_treeLookup`; the accumulator is
`(best, bestDist)`. -/
def treeLookupStep (dest : treeInfo) (acc : treeInfo × Int) (info : treeInfo) :
    Option (treeInfo × Int) :=
  (stripLast info.hops).bind fun hs =>
  let tmp : treeInfo := { root := info.root, hops := hs }
  let dist := tmp.dist dest
  (if dist < acc.2 then some true
   else if dist > acc.2 then some false
   else treeLess acc.1.from_ info.from_).bind fun isBetter =>
  if isBetter then some (info, dist) else some acc

/-- The method `dhtree._treeLookup`. -/
def dhtree._treeLookup (t : dhtree) (dest : treeInfo) : Option publicKey :=
  t.self.bind fun s =>
  (List.foldlM (treeLookupStep dest) (s, s.dist dest) (t.tinfos.map Prod.snd)).bind fun r =>
  if r.1.root ≠ dest.root then some t.corePublicKey else some r.1.from_

/-- The hop loop of `_dhtLookup`; the accumulator is `(best, bestPeer)`.  On a
hit the source assigns `t.self.root` to `best`. -/
def dhtHopStep (dest : publicKey) (s : treeInfo) (acc : publicKey × publicKey)
    (hop : treeHop) : Option (publicKey × publicKey) :=
  (dhtOrdered dest hop.next acc.1).bind fun o =>
  if o then some (s.root, s.from_) else some acc

/-- The peer loop of `_dhtLookup`. -/
def dhtPeerStep (dest : publicKey) (acc : publicKey × publicKey) (info : treeInfo) :
    Option (publicKey × publicKey) :=
  (dhtOrdered dest info.from_ acc.1).bind fun o =>
  if o then some (info.from_, info.from_) else some acc

/-- The path loop of `_dhtLookup`. -/
def dhtPathStep (dest : publicKey) (acc : publicKey × publicKey) (info : dhtInfo) :
    Option (publicKey × publicKey) :=
  (dhtOrdered dest info.source acc.1).bind fun o =>
  if o then some (info.source, info.prev) else some acc

/-- The method `dhtree._dhtLookup`. -/
def dhtree._dhtLookup (t : dhtree) (dest : publicKey) : Option publicKey :=
  t.self.bind fun s =>
  (dhtOrdered dest s.root t.corePublicKey).bind fun o =>
  let acc0 : publicKey × publicKey :=
    if o then (s.root, s.from_) else (t.corePublicKey, t.corePublicKey)
  (List.foldlM (dhtHopStep dest s) acc0 s.hops).bind fun acc1 =>
  (List.foldlM (dhtPeerStep dest) acc1 (t.tinfos.map Prod.snd)).bind fun acc2 =>
  (List.foldlM (dhtPathStep dest) acc2 (t.dinfos.map Prod.snd)).bind fun acc3 =>
  some acc3.2

/-! ## Specification-side definitions -/

/-- The candidate sequence of the key-space lookup as the specification lists
it: each entry is a candidate key with the peer to forward to. -/
def dhtCandidates (t : dhtree) (s : treeInfo) : List (publicKey × publicKey) :=
  (s.root, s.from_) :: s.hops.map (fun hop => (hop.next, s.from_))
    ++ t.tinfos.map (fun p => (p.2.from_, p.2.from_))
    ++ t.dinfos.map (fun p => (p.2.source, p.2.prev))

/-- One step of the reference greedy fold: a candidate replaces the current best
exactly when `dhtOrdered dest candidateKey currentBest`, and then becomes the
best itself. -/
def dhtSpecStep (dest : publicKey) (acc cand : publicKey × publicKey) :
    Option (publicKey × publicKey) :=
  (dhtOrdered dest cand.1 acc.1).bind fun o => if o then some cand else some acc

/-- The reference key-space lookup, written from the specification. -/
def dhtLookupSpec (t : dhtree) (dest : publicKey) : Option publicKey :=
  t.self.bind fun s =>
  (List.foldlM (dhtSpecStep dest) (t.corePublicKey, t.corePublicKey)
    (dhtCandidates t s)).bind fun acc => some acc.2

/-- All keys of a record have length `n`. -/
def treeInfo.WF (n : Nat) (info : treeInfo) : Prop :=
  info.root.length = n ∧ ∀ hop ∈ info.hops, hop.next.length = n

/-- All keys the actor compares have length `n`. -/
def dhtree.WF (n : Nat) (t : dhtree) : Prop :=
  t.corePublicKey.length = n ∧ (∀ p ∈ t.tinfos, p.2.WF n) ∧
  (∀ s, t.self = some s → s.WF n)

/-- States the actor reaches from `init`: `update` with records satisfying `P`
and `remove` with any record, the map being iterated in any order each time, any
re-ordering of `tinfos` between two handlers, and any change of `dinfos` by its
external owner. -/
inductive Reachable (P : treeInfo → Prop) (pk : publicKey) : dhtree → Prop
  | init : Reachable P pk (dhtree.init pk)
  | update {t t2 : dhtree} (info : treeInfo) (order : List (publicKey × treeInfo)) :
      Reachable P pk t → P info → (mapSet t.tinfos info.from_ info).Perm order →
      t.updateIn info order = some t2 → Reachable P pk t2
  | remove {t t2 : dhtree} (info : treeInfo) (order : List (publicKey × treeInfo)) :
      Reachable P pk t → (mapDelete t.tinfos info.from_).Perm order →
      t.removeIn info order = some t2 → Reachable P pk t2
  | reorder {t : dhtree} (l : List (publicKey × treeInfo)) :
      Reachable P pk t → t.tinfos.Perm l → Reachable P pk { t with tinfos := l }
  | setDinfos {t : dhtree} (d : List (publicKey × dhtInfo)) :
      Reachable P pk t → Reachable P pk { t with dinfos := d }

/-- States on which the actor runs `_fix`: inside `update`, after the map
assignment and the reset of `self`; inside `remove` of the governing peer, after
the deletion and with `self` nil; and, for a re-run between two handlers, any
reachable state. -/
inductive FixCalled (P : treeInfo → Prop) (pk : publicKey) : dhtree → Prop
  | update {t : dhtree} (info s : treeInfo) (order : List (publicKey × treeInfo)) :
      Reachable P pk t → P info → (mapSet t.tinfos info.from_ info).Perm order →
      t.self = some s →
      FixCalled P pk
        { t with tinfos := order, self := if info.from_ = s.from_ then none else some s }
  | remove {t : dhtree} (info s : treeInfo) (order : List (publicKey × treeInfo)) :
      Reachable P pk t → (mapDelete t.tinfos info.from_).Perm order →
      t.self = some s → info.from_ = s.from_ →
      FixCalled P pk { t with tinfos := order, self := none }
  | settled {t : dhtree} : Reachable P pk t → FixCalled P pk t

/-- The preference of `_fix` as a pure relation: `x` is taken over the current
`s`. -/
def outranks (x s : treeInfo) : Bool :=
  lexLt s.root x.root ||
    (!lexLt x.root s.root &&
      (decide (x.hops.length < s.hops.length) ||
        (decide (x.hops.length = s.hops.length) && lexLt s.from_ x.from_)))

/-- The loop of `_fix` as a pure fold. -/
def fixFold (s0 : treeInfo) (l : List treeInfo) : treeInfo :=
  l.foldl (fun s x => if x.checkLoops && outranks x s then x else s) s0

/-! ## Pure lexicographic comparison, used to reason about `treeLess` -/

/-- Exactly one of three propositions holds. -/
def ExactlyOne (p q r : Prop) : Prop :=
  (p ∧ ¬q ∧ ¬r) ∨ (¬p ∧ q ∧ ¬r) ∨ (¬p ∧ ¬q ∧ r)

instance (p q r : Prop) [Decidable p] [Decidable q] [Decidable r] :
    Decidable (ExactlyOne p q r) := by
  unfold ExactlyOne
  infer_instance

/-- The chain `x < y < z` under `treeLess`. -/
def lessChain (x y z : publicKey) : Prop :=
  treeLess x y = some true ∧ treeLess y z = some true

/-- The start of `_fix` as a pure function. -/
def fixStartPure (t : dhtree) : treeInfo :=
  match t.self with
  | none => { root := t.corePublicKey, hops := [] }
  | some s => if lexLt s.root t.corePublicKey then { root := t.corePublicKey, hops := [] } else s

/-- The record `s` is the degenerate self-claim or a stored loop-free claim. -/
def selfAnchored (t : dhtree) (s : treeInfo) : Prop :=
  s = { root := t.corePublicKey, hops := [] } ∨ ((s.from_, s) ∈ t.tinfos ∧ s.checkLoops = true)

/-- The invariant of the actor between two handlers: keys have length `n`, every
map entry is stored under its own source key, and `self` is present, is not
below the local key, is not outranked by any stored loop-free claim, and is
anchored. -/
structure Stable (n : Nat) (pk : publicKey) (t : dhtree) : Prop where
  pk_eq : t.corePublicKey = pk
  wf : t.WF n
  keyed : ∀ p ∈ t.tinfos, p.1 = p.2.from_
  self_ok : ∃ s, t.self = some s ∧ lexLt s.root t.corePublicKey = false ∧
    (∀ p ∈ t.tinfos, p.2.checkLoops = true → outranks p.2 s = false) ∧ selfAnchored t s

instance (n : Nat) (info : treeInfo) : Decidable (info.WF n) := by
  unfold treeInfo.WF
  infer_instance

/-! ## Concrete scenarios -/

/-- The degenerate self-claim of `root` extended by one hop to `me`.  The
signature bytes are left empty: the election and the lookups never read them. -/
def peerClaim (root me : publicKey) : treeInfo :=
  { root := root, hops := [{ next := me, sig := [] }] }

/-- Node `me` after ingesting the one-hop claim of `p`. -/
def nodeAfterOne (me p : publicKey) (best : publicKey) : dhtree :=
  { corePublicKey := me, tinfos := [(p, peerClaim p me)], dinfos := [],
    self := some (if best = me then { root := me, hops := [] } else peerClaim best me) }

/-- Node `me` after ingesting the one-hop claims of `p` and then `q`, with `best`
the root it has settled on. -/
def nodeAfterTwo (me p q : publicKey) (best : publicKey) : dhtree :=
  { corePublicKey := me, tinfos := [(p, peerClaim p me), (q, peerClaim q me)], dinfos := [],
    self := some (if best = me then { root := me, hops := [] } else peerClaim best me) }

/-! ## Specification-side definitions for the tree lookup -/

/-- The distance `_treeLookup` computes for a stored claim: the claim with its
final hop stripped, measured against `dest`. -/
def peerDist (dest info : treeInfo) : Int :=
  treeInfo.dist { root := info.root, hops := info.hops.dropLast } dest

/-- The candidates of `_treeLookup` with their distances: `self` taken as is,
then every stored claim with its final hop stripped. -/
def treeCandidates (t : dhtree) (s dest : treeInfo) : List (treeInfo × Int) :=
  (s, s.dist dest) :: t.tinfos.map (fun p => (p.2, peerDist dest p.2))

/-- The loop body of `_treeLookup` as a pure function on candidates. -/
def treePickStep (acc c : treeInfo × Int) : treeInfo × Int :=
  if c.2 < acc.2 ∨ (c.2 = acc.2 ∧ lexLt acc.1.from_ c.1.from_ = true) then c else acc

/-- A bound no hop list reaches: a slice of two-slice structs cannot hold `2^61`
elements in a 64-bit address space. -/
def maxHops : Nat := 2 ^ 61

/-- A 32-byte key: the byte `b` followed by 31 zero bytes. -/
def key32 (b : Nat) : publicKey := b :: List.replicate 31 0

/-- The record with root `root` whose hops visit `path` in order (signature bytes
left empty: the lookups never read them). -/
def mkInfo (root : publicKey) (path : List publicKey) : treeInfo :=
  { root := root, hops := path.map (fun k => { next := k, sig := [] }) }

/-- The claim node `100` receives from its parent `60`: root `200`, then `50`,
`60`, `100`. -/
def claimVia60 : treeInfo := mkInfo (key32 200) [key32 50, key32 60, key32 100]

/-- The claim node `100` receives from peer `55`: root `200`, then `7`, `8`, `55`,
`100`. -/
def claimVia55 : treeInfo := mkInfo (key32 200) [key32 7, key32 8, key32 55, key32 100]

/-- Node `100` after ingesting `claimVia60`. -/
def forkedMid : dhtree :=
  { corePublicKey := key32 100, tinfos := [(key32 60, claimVia60)], dinfos := [],
    self := some claimVia60 }

/-- Node `100` after ingesting `claimVia60` and then `claimVia55`: it keeps the
shorter path through `60`. -/
def forkedState : dhtree :=
  { corePublicKey := key32 100,
    tinfos := [(key32 60, claimVia60), (key32 55, claimVia55)], dinfos := [],
    self := some claimVia60 }

/-! ## Specification-side definitions for the tree distance -/

/-- Length of the longest common prefix of two key sequences. -/
def commonPrefixLen : List publicKey → List publicKey → Nat
  | x :: xs, y :: ys => if x = y then commonPrefixLen xs ys + 1 else 0
  | _, _ => 0

/-- The sequence of `next` keys of a hop list. -/
def nextKeys (hops : List treeHop) : List publicKey := hops.map (fun hop => hop.next)

/-- The distance the specification states for two records with one root:
`len(hopsA) + len(hopsB) - 2*L`. -/
def distSpec (a b : treeInfo) : Int :=
  (a.hops.length : Int) + (b.hops.length : Int)
    - 2 * (commonPrefixLen (nextKeys a.hops) (nextKeys b.hops) : Int)

/-- A record two levels below root `[9]`, through `[5]` to `[6]`. -/
def pathA : treeInfo := mkInfo [9] [[5], [6]]

/-- A record two levels below root `[9]`, through `[5]` to `[7]`: a sibling of
`pathA`. -/
def pathB : treeInfo := mkInfo [9] [[5], [7]]

/-! ## Signing and checking a path -/

/-- A private key is a byte slice. -/
abbrev privateKey := List Nat

/-- The bytes `root || next_0 || ... ` accumulated by the loops of `add` and
`checkSigs`, starting from `bs`. -/
def appendNexts (bs : List Nat) (hops : List treeHop) : List Nat :=
  hops.foldl (fun acc hop => acc ++ hop.next) bs

/-- The loop of `treeInfo.checkSigs`: `key` is the key that must have signed the
next hop and `bs` the bytes accumulated so far.  The method `publicKey.verify`
is the parameter `verify`. -/
def checkSigsFrom (verify : publicKey → List Nat → signature → Bool) (key : publicKey)
    (bs : List Nat) : List treeHop → Bool
  | [] => true
  | hop :: rest =>
    if !verify key (bs ++ hop.next) hop.sig then false
    else checkSigsFrom verify hop.next (bs ++ hop.next) rest

/-- The method `treeInfo.checkSigs`. -/
def treeInfo.checkSigs (verify : publicKey → List Nat → signature → Bool)
    (info : treeInfo) : Bool :=
  if info.hops.length = 0 then false
  else checkSigsFrom verify info.root ([] ++ info.root) info.hops

/-- The method `treeInfo.add`; the method `privateKey.sign` is the parameter
`sign`.  The result is a new value: the receiver is not changed. -/
def treeInfo.add (sign : privateKey → List Nat → signature) (info : treeInfo)
    (priv : privateKey) (next : publicKey) : treeInfo :=
  let bs := appendNexts ([] ++ info.root) info.hops ++ next
  { root := info.root, hops := info.hops ++ [{ next := next, sig := sign priv bs }] }

/-- The key that signs the hop following `hops`: the `next` of the last hop, or
`key` when there is none. -/
def lastKeyFrom (key : publicKey) : List treeHop → publicKey
  | [] => key
  | hop :: rest => lastKeyFrom hop.next rest

/-- The successive `add` calls along a chain of private keys: each key signs the
hop to the public key of its successor, the last one signs the hop to `last`. -/
def addChain (sign : privateKey → List Nat → signature) (pub : privateKey → publicKey)
    (info : treeInfo) : List privateKey → publicKey → treeInfo
  | [], _ => info
  | [k], last => info.add sign k last
  | k :: k2 :: rest, last => addChain sign pub (info.add sign k (pub k2)) (k2 :: rest) last

/-- The record built from the degenerate record of `k0` along the chain
`k0 :: ks`, ending on the key `last`. -/
def chainRecord (sign : privateKey → List Nat → signature) (pub : privateKey → publicKey)
    (k0 : privateKey) (ks : List privateKey) (last : publicKey) : treeInfo :=
  addChain sign pub { root := pub k0, hops := [] } (k0 :: ks) last

/-- Every hop of the record carries the signature of the holder of the preceding
key over the bytes up to and including its own `next`. -/
def SignedBy (sign : privateKey → List Nat → signature) (pub : privateKey → publicKey)
    (info : treeInfo) : Prop :=
  ∀ pre hop post, info.hops = pre ++ hop :: post →
    ∃ k, lastKeyFrom info.root pre = pub k ∧
      hop.sig = sign k (appendNexts info.root pre ++ hop.next)

/-- A toy signature scheme for concrete instances: the public key is the private
key, a signature is the key followed by the message. -/
def toyPub (k : privateKey) : publicKey := k

/-- Signing in the toy scheme. -/
def toySign (k : privateKey) (m : List Nat) : signature := k ++ m

/-- Verification in the toy scheme. -/
def toyVerify (p : publicKey) (m : List Nat) (s : signature) : Bool := decide (s = p ++ m)

/-! ## Wire format -/

/-- Modelled from the spec: the constant `publicKeySize`, declared outside the
sources at hand; a public key has 32 bytes. -/
def publicKeySize : Nat := 32

/-- Modelled from the spec: the constant `signatureSize`, declared outside the
sources at hand; a signature has 64 bytes. -/
def signatureSize : Nat := 64

/-- Modelled from the spec: the helper `wireChopBytes`, defined outside the
sources at hand: split off the first `n` bytes of `data`, fail if fewer than `n`
remain.  The result is the pair of the bytes split off and the remaining data. -/
def wireChopBytes (data : List Nat) (n : Nat) : Option (List Nat × List Nat) :=
  if data.length < n then none else some (data.take n, data.drop n)

/-- The method `treeInfo.MarshalBinary`; its error result is always nil. -/
def treeInfo.MarshalBinary (info : treeInfo) : List Nat :=
  info.hops.foldl (fun data hop => data ++ hop.next ++ hop.sig) ([] ++ info.root)

/-- The loop `for len(data) > 0` of `UnmarshalBinary`, with `hops` the hops
decoded so far; `none` is the error return.  The recursion is on `fuel`, an
upper bound on the number of iterations: every iteration consumes 96 bytes, so
`data.length` is enough, and the case of no fuel with data left never arises
from `UnmarshalBinary`. -/
def unmarshalHops : Nat → List treeHop → List Nat → Option (List treeHop)
  | fuel, hops, data =>
    if data.length > 0 then
      match fuel with
      | 0 => none
      | fuel + 1 =>
        match wireChopBytes data publicKeySize with
        | none => none
        | some (next, data1) =>
          match wireChopBytes data1 signatureSize with
          | none => none
          | some (sig, data2) =>
            unmarshalHops fuel (hops ++ [{ next := next, sig := sig }]) data2
    else some hops

/-- The method `treeInfo.UnmarshalBinary`: the result is the receiver after the
call together with the flag "an error is returned".  The receiver is only
assigned on the successful path. -/
def treeInfo.UnmarshalBinary (info : treeInfo) (data : List Nat) : treeInfo × Bool :=
  match wireChopBytes data publicKeySize with
  | none => (info, true)
  | some (root, data1) =>
    match unmarshalHops data1.length [] data1 with
    | none => (info, true)
    | some hops => ({ root := root, hops := hops }, false)

/-- The bytes of a hop list on the wire. -/
def hopBytes (hops : List treeHop) : List Nat :=
  (hops.map (fun hop => hop.next ++ hop.sig)).flatten

/-- A record of the wire format: a 32-byte root, and hops of a 32-byte key and a
64-byte signature. -/
def treeInfo.Sized (info : treeInfo) : Prop :=
  info.root.length = 32 ∧ ∀ hop ∈ info.hops, hop.next.length = 32 ∧ hop.sig.length = 64

instance (info : treeInfo) : Decidable info.Sized := by
  unfold treeInfo.Sized
  infer_instance

/-- A well-sized record with one hop. -/
def wireSample : treeInfo :=
  { root := key32 9, hops := [{ next := key32 5, sig := List.replicate 64 1 }] }

/-! ## Nonces (`encrypted/crypto.go`) -/

/-- The constant `boxNonceSize`. -/
def boxNonceSize : Nat := 24

/-- The type `boxNonce` is an array of `boxNonceSize` bytes; as a list its length
and the range of its bytes are stated by `IsNonce`. -/
abbrev boxNonce := List Nat

/-- Well-formedness of a nonce: `boxNonceSize` bytes, each below 256. -/
def IsNonce (n : boxNonce) : Prop := n.length = boxNonceSize ∧ ∀ b ∈ n, b < 256

instance (n : boxNonce) : Decidable (IsNonce n) := by
  unfold IsNonce
  infer_instance

/-- The method `boxNonce.lessThan`: both arrays have the same length, so the
index never leaves `o`. -/
def boxNonce.lessThan : boxNonce → boxNonce → Bool
  | x :: xs, y :: ys =>
    if x < y then true
    else if x > y then false
    else boxNonce.lessThan xs ys
  | _, _ => false

/-- The loop of `boxNonce.inc` on the bytes in visiting order, last index first:
the byte is incremented modulo 256, and the loop goes on to the next byte only
when the byte rolled over to zero. -/
def incFromLast : List Nat → List Nat
  | [] => []
  | b :: rest =>
    if (b + 1) % 256 ≠ 0 then (b + 1) % 256 :: rest
    else (b + 1) % 256 :: incFromLast rest

/-- The method `boxNonce.inc`, returning the new contents of the array. -/
def boxNonce.inc (n : boxNonce) : boxNonce := (incFromLast n.reverse).reverse

/-- A byte sequence read as a big-endian unsigned integer. -/
def beValue (n : List Nat) : Nat := n.foldl (fun acc b => acc * 256 + b) 0

/-- A byte sequence read as a little-endian unsigned integer. -/
def leValue : List Nat → Nat
  | [] => 0
  | b :: rest => b + 256 * leValue rest

/-! ## Order lemmas -/

theorem treeLess_eq_lexLt (a b : publicKey) (h : a.length = b.length) :
    treeLess a b = some (lexLt a b) := by
  induction a generalizing b with
  | nil => cases b <;> simp_all [treeLess, lexLt]
  | cons x xs ih =>
    cases b with
    | nil => simp at h
    | cons y ys =>
      simp at h
      simp only [treeLess, lexLt, ih ys h]
      by_cases h1 : x < y
      · simp [h1]
      · by_cases h2 : x > y
        · have : x ≠ y := by omega
          simp [h1, h2, this]
        · have : x = y := by omega
          simp [h1, h2, this]

theorem lexLt_irrefl (a : List Nat) : lexLt a a = false := by
  induction a with
  | nil => rfl
  | cons x xs ih => simp [lexLt, ih]

theorem lexLt_trans (a b c : List Nat) (h1 : lexLt a b = true) (h2 : lexLt b c = true) :
    lexLt a c = true := by
  induction a generalizing b c with
  | nil => cases b <;> simp [lexLt] at h1
  | cons x xs ih =>
    cases b with
    | nil => simp [lexLt] at h1
    | cons y ys =>
      cases c with
      | nil => simp [lexLt] at h2
      | cons z zs =>
        simp only [lexLt, Bool.or_eq_true, Bool.and_eq_true, decide_eq_true_eq] at h1 h2 ⊢
        rcases h1 with h1 | ⟨e1, h1⟩ <;> rcases h2 with h2 | ⟨e2, h2⟩
        · left; omega
        · left; omega
        · left; omega
        · right; exact ⟨by omega, ih ys zs h1 h2⟩

theorem lexLt_asymm (a b : List Nat) (h1 : lexLt a b = true) : lexLt b a = false := by
  cases h : lexLt b a with
  | false => rfl
  | true =>
    have := lexLt_trans a b a h1 h
    rw [lexLt_irrefl] at this
    exact absurd this (by decide)

theorem lexLt_connected (a b : List Nat) (h : a.length = b.length)
    (h1 : lexLt a b = false) (h2 : lexLt b a = false) : a = b := by
  induction a generalizing b with
  | nil => cases b with
    | nil => rfl
    | cons y ys => simp at h
  | cons x xs ih =>
    cases b with
    | nil => simp at h
    | cons y ys =>
      simp at h
      simp only [lexLt, Bool.or_eq_false_iff, Bool.and_eq_false_iff,
        decide_eq_false_iff_not] at h1 h2
      have hxy : x = y := by omega
      subst hxy
      simp at h1 h2
      rw [ih ys h h1 h2]

/-- On equal-length keys `lexLt` is the negation of its converse, away from the
diagonal. -/
theorem lexLt_flip (a b : List Nat) (h : a.length = b.length) (hne : a ≠ b) :
    lexLt b a = !lexLt a b := by
  cases h1 : lexLt a b with
  | true => simpa using lexLt_asymm a b h1
  | false =>
    cases h2 : lexLt b a with
    | true => rfl
    | false => exact absurd (lexLt_connected a b h h1 h2) hne

/-- No three keys are cyclically increasing. -/
theorem lexLt_no_cycle (a b c : List Nat) (h1 : lexLt a b = true) (h2 : lexLt b c = true) :
    lexLt c a = false :=
  lexLt_asymm a c (lexLt_trans a b c h1 h2)

theorem dhtOrdered_eq (a b c : publicKey) (hab : a.length = b.length)
    (hbc : b.length = c.length) :
    dhtOrdered a b c = some ((lexLt a b && lexLt b c) || (lexLt b c && lexLt c a)
      || (lexLt c a && lexLt a b)) := by
  have hca : c.length = a.length := by omega
  simp only [dhtOrdered, treeLess_eq_lexLt a b hab, treeLess_eq_lexLt b c hbc,
    treeLess_eq_lexLt c a hca]
  cases lexLt a b <;> cases lexLt b c <;> cases lexLt c a <;> rfl

/-! ## The cyclic order -/

/-- C9: on equal-length keys `dhtOrdered a b c` returns, and it is true exactly
when exactly one of the chains `a<b<c`, `b<c<a`, `c<a<b` holds under
`treeLess`. -/
theorem dhtOrdered_iff_exactlyOne_chain (a b c : publicKey)
    (hab : a.length = b.length) (hbc : b.length = c.length) :
    ∃ r, dhtOrdered a b c = some r ∧
      (r = true ↔ ExactlyOne (lessChain a b c) (lessChain b c a) (lessChain c a b)) := by
  have hca : c.length = a.length := by omega
  refine ⟨_, dhtOrdered_eq a b c hab hbc, ?_⟩
  simp only [ExactlyOne, lessChain, treeLess_eq_lexLt a b hab, treeLess_eq_lexLt b c hbc,
    treeLess_eq_lexLt c a hca, Option.some.injEq]
  have k1 := lexLt_no_cycle a b c
  have k2 := lexLt_no_cycle b c a
  have k3 := lexLt_no_cycle c a b
  revert k1 k2 k3
  cases lexLt a b <;> cases lexLt b c <;> cases lexLt c a <;> simp

/-- C9 instance at the keys `[1]`, `[2]`, `[3]`. -/
theorem dhtOrdered_iff_exactlyOne_chain_witness :
    ∃ r, dhtOrdered [1] [2] [3] = some r ∧
      (r = true ↔ ExactlyOne (lessChain [1] [2] [3]) (lessChain [2] [3] [1])
        (lessChain [3] [1] [2])) :=
  dhtOrdered_iff_exactlyOne_chain [1] [2] [3] rfl rfl

/-- C10 as stated fails: the keys `[1]`, `[2]`, `[3]` are pairwise distinct and
of equal length, yet all three rotations of `dhtOrdered` are true, so it is not
the case that exactly one of them is. -/
theorem dhtOrdered_rotations_not_exactlyOne :
    (([1] : publicKey) ≠ [2] ∧ ([2] : publicKey) ≠ [3] ∧ ([1] : publicKey) ≠ [3]) ∧
    dhtOrdered [1] [2] [3] = some true ∧ dhtOrdered [2] [3] [1] = some true ∧
    dhtOrdered [3] [1] [2] = some true ∧
    ¬ ExactlyOne (dhtOrdered [1] [2] [3] = some true) (dhtOrdered [2] [3] [1] = some true)
      (dhtOrdered [3] [1] [2] = some true) := by
  decide

/-- C10 amended: for pairwise distinct equal-length keys the three rotations of
`dhtOrdered` agree, and exactly one of the two orientations `dhtOrdered a b c`
and `dhtOrdered a c b` is true. -/
theorem dhtOrdered_rotation_and_orientation (a b c : publicKey)
    (hab : a.length = b.length) (hbc : b.length = c.length)
    (nab : a ≠ b) (nbc : b ≠ c) (nac : a ≠ c) :
    dhtOrdered b c a = dhtOrdered a b c ∧ dhtOrdered c a b = dhtOrdered a b c ∧
    ((dhtOrdered a b c = some true ∧ dhtOrdered a c b = some false) ∨
     (dhtOrdered a b c = some false ∧ dhtOrdered a c b = some true)) := by
  have hca : c.length = a.length := by omega
  rw [dhtOrdered_eq a b c hab hbc, dhtOrdered_eq b c a hbc hca, dhtOrdered_eq c a b hca hab,
    dhtOrdered_eq a c b hca.symm hbc.symm]
  rw [lexLt_flip a b hab nab, lexLt_flip b c hbc nbc, lexLt_flip a c hca.symm nac]
  have k1 := lexLt_no_cycle a b c
  have k2 := lexLt_no_cycle c b a
  rw [lexLt_flip a b hab nab, lexLt_flip b c hbc nbc] at k2
  rw [lexLt_flip a c hca.symm nac] at k1
  revert k1 k2
  cases lexLt a b <;> cases lexLt b c <;> cases lexLt a c <;> simp

/-- C10 amended, instance at the keys `[1]`, `[2]`, `[3]`. -/
theorem dhtOrdered_rotation_and_orientation_witness :
    dhtOrdered [2] [3] [1] = dhtOrdered [1] [2] [3] ∧
    dhtOrdered [3] [1] [2] = dhtOrdered [1] [2] [3] ∧
    ((dhtOrdered [1] [2] [3] = some true ∧ dhtOrdered [1] [3] [2] = some false) ∨
     (dhtOrdered [1] [2] [3] = some false ∧ dhtOrdered [1] [3] [2] = some true)) :=
  dhtOrdered_rotation_and_orientation [1] [2] [3] rfl rfl (by decide) (by decide) (by decide)

/-! ## Records and the election order -/

theorem secondToLast_mem (hs : List treeHop) (k : publicKey) (h : secondToLast hs = some k) :
    ∃ hop ∈ hs, hop.next = k := by
  induction hs with
  | nil => simp [secondToLast] at h
  | cons a t ih =>
    cases t with
    | nil => simp [secondToLast] at h
    | cons b u =>
      cases u with
      | nil =>
        simp [secondToLast] at h
        exact ⟨a, by simp, h⟩
      | cons c v =>
        simp only [secondToLast] at h
        obtain ⟨hop, hm, he⟩ := ih h
        exact ⟨hop, List.mem_cons_of_mem _ hm, he⟩

theorem treeInfo.WF.from_length {n : Nat} {info : treeInfo} (h : info.WF n) :
    info.from_.length = n := by
  unfold treeInfo.from_
  cases hs : secondToLast info.hops with
  | none => exact h.1
  | some k =>
    obtain ⟨hop, hm, he⟩ := secondToLast_mem _ _ hs
    simpa [he] using h.2 hop hm

theorem fixStep_eq {n : Nat} {s x : treeInfo} (hs : s.WF n) (hx : x.WF n) :
    fixStep s x = some (if x.checkLoops && outranks x s then x else s) := by
  have e1 : s.root.length = x.root.length := by rw [hs.1, hx.1]
  have e2 : s.from_.length = x.from_.length := by rw [hs.from_length, hx.from_length]
  unfold fixStep outranks
  rw [treeLess_eq_lexLt _ _ e1, treeLess_eq_lexLt _ _ e1.symm, treeLess_eq_lexLt _ _ e2]
  cases x.checkLoops <;> cases lexLt s.root x.root <;> cases lexLt x.root s.root <;>
    cases lexLt s.from_ x.from_ <;>
    rcases Nat.lt_trichotomy x.hops.length s.hops.length with h | h | h <;>
    simp [h, Nat.lt_asymm, Nat.ne_of_lt, Nat.ne_of_gt, Nat.lt_irrefl]

theorem outranks_irrefl (x : treeInfo) : outranks x x = false := by
  simp [outranks, lexLt_irrefl]

theorem outranks_trans {n : Nat} {x y z : treeInfo} (hx : x.WF n) (hy : y.WF n) (hz : z.WF n)
    (h1 : outranks x y = true) (h2 : outranks y z = true) : outranks x z = true := by
  have fx := hx.from_length
  have fy := hy.from_length
  have fz := hz.from_length
  simp only [outranks, Bool.or_eq_true, Bool.and_eq_true, Bool.not_eq_true',
    decide_eq_true_eq] at h1 h2 ⊢
  rcases h1 with h1 | ⟨r1, h1⟩
  · rcases h2 with h2 | ⟨r2, h2⟩
    · exact Or.inl (lexLt_trans _ _ _ h2 h1)
    · cases r3 : lexLt z.root y.root with
      | true => exact Or.inl (lexLt_trans _ _ _ r3 h1)
      | false =>
        have e : y.root = z.root := lexLt_connected _ _ (by rw [hy.1, hz.1]) r2 r3
        rw [← e]
        exact Or.inl h1
  · cases r0 : lexLt y.root x.root with
    | true =>
      rcases h2 with h2 | ⟨r2, h2⟩
      · exact Or.inl (lexLt_trans _ _ _ h2 r0)
      · cases r3 : lexLt z.root y.root with
        | true => exact Or.inl (lexLt_trans _ _ _ r3 r0)
        | false =>
          have e : y.root = z.root := lexLt_connected _ _ (by rw [hy.1, hz.1]) r2 r3
          rw [← e]
          exact Or.inl r0
    | false =>
      have e : x.root = y.root := lexLt_connected _ _ (by rw [hx.1, hy.1]) r1 r0
      rw [e]
      rcases h2 with h2 | ⟨r2, h2⟩
      · exact Or.inl h2
      · refine Or.inr ⟨r2, ?_⟩
        rcases h1 with h1 | ⟨l1, h1⟩ <;> rcases h2 with h2 | ⟨l2, h2⟩
        · left; omega
        · left; omega
        · left; omega
        · right; exact ⟨by omega, lexLt_trans _ _ _ h2 h1⟩

theorem outranks_asymm {n : Nat} {x y : treeInfo} (hx : x.WF n) (hy : y.WF n)
    (h1 : outranks x y = true) : outranks y x = false := by
  cases h : outranks y x with
  | false => rfl
  | true =>
    have := outranks_trans hx hy hx h1 h
    rw [outranks_irrefl] at this
    exact absurd this (by decide)

/-- Two records neither of which outranks the other agree on root, hop count and
source key. -/
theorem outranks_tie {n : Nat} {x y : treeInfo} (hx : x.WF n) (hy : y.WF n)
    (h1 : outranks x y = false) (h2 : outranks y x = false) :
    x.root = y.root ∧ x.hops.length = y.hops.length ∧ x.from_ = y.from_ := by
  have fx := hx.from_length
  have fy := hy.from_length
  simp only [outranks, Bool.or_eq_false_iff, Bool.and_eq_false_iff, Bool.not_eq_false',
    decide_eq_false_iff_not] at h1 h2
  obtain ⟨a1, b1⟩ := h1
  obtain ⟨a2, b2⟩ := h2
  have e : x.root = y.root := lexLt_connected _ _ (by rw [hx.1, hy.1]) a2 a1
  refine ⟨e, ?_⟩
  rw [a1] at b2
  rw [a2] at b1
  simp at b1 b2
  have hl : x.hops.length = y.hops.length := by omega
  refine ⟨hl, ?_⟩
  have c1 := b1.2
  have c2 := b2.2
  simp only [hl, true_and, not_true_eq_false, false_or] at c1 c2
  exact lexLt_connected _ _ (by rw [fx, fy]) c2 c1

/-! ## The election loop -/

theorem fixFold_cons (s0 x : treeInfo) (l : List treeInfo) :
    fixFold s0 (x :: l) = fixFold (if x.checkLoops && outranks x s0 then x else s0) l := rfl

theorem fixFold_nil (s0 : treeInfo) : fixFold s0 [] = s0 := rfl

/-- The result of the loop is the start or a loop-free claim that outranks it. -/
theorem fixFold_mem {n : Nat} (l : List treeInfo) (s0 : treeInfo) (h0 : s0.WF n)
    (hl : ∀ x ∈ l, x.WF n) :
    fixFold s0 l = s0 ∨
      (fixFold s0 l ∈ l ∧ (fixFold s0 l).checkLoops = true ∧
        outranks (fixFold s0 l) s0 = true) := by
  induction l generalizing s0 with
  | nil => exact Or.inl rfl
  | cons x l ih =>
    have hx : x.WF n := hl x (List.mem_cons_self _ _)
    have hl2 : ∀ y ∈ l, y.WF n := fun y hy => hl y (List.mem_cons_of_mem _ hy)
    rw [fixFold_cons]
    by_cases hc : (x.checkLoops && outranks x s0) = true
    · rw [if_pos hc]
      simp only [Bool.and_eq_true] at hc
      rcases ih x hx hl2 with e | ⟨m, c, o⟩
      · rw [e]
        exact Or.inr ⟨List.mem_cons_self _ _, hc.1, hc.2⟩
      · have hf : (fixFold x l).WF n := hl2 _ m
        exact Or.inr ⟨List.mem_cons_of_mem _ m, c, outranks_trans hf hx h0 o hc.2⟩
    · rw [if_neg hc]
      rcases ih s0 h0 hl2 with e | ⟨m, c, o⟩
      · exact Or.inl e
      · exact Or.inr ⟨List.mem_cons_of_mem _ m, c, o⟩

theorem fixFold_WF {n : Nat} (l : List treeInfo) (s0 : treeInfo) (h0 : s0.WF n)
    (hl : ∀ x ∈ l, x.WF n) : (fixFold s0 l).WF n := by
  rcases fixFold_mem l s0 h0 hl with e | ⟨m, _, _⟩
  · rw [e]; exact h0
  · exact hl _ m

/-- No loop-free claim of the list outranks the result of the loop. -/
theorem fixFold_max {n : Nat} (l : List treeInfo) (s0 : treeInfo) (h0 : s0.WF n)
    (hl : ∀ x ∈ l, x.WF n) :
    ∀ x ∈ l, x.checkLoops = true → outranks x (fixFold s0 l) = false := by
  induction l generalizing s0 with
  | nil => intro x hx; simp at hx
  | cons y l ih =>
    have hy : y.WF n := hl y (List.mem_cons_self _ _)
    have hl2 : ∀ z ∈ l, z.WF n := fun z hz => hl z (List.mem_cons_of_mem _ hz)
    intro x hx hc
    rw [fixFold_cons]
    have hs1 : (if y.checkLoops && outranks y s0 then y else s0).WF n := by
      split
      · exact hy
      · exact h0
    rcases List.mem_cons.1 hx with e | hm
    · subst e
      have hstep : outranks x (if x.checkLoops && outranks x s0 then x else s0) = false := by
        by_cases hq : outranks x s0 = true
        · simp [hc, hq, outranks_irrefl]
        · simp only [Bool.not_eq_true] at hq
          simp [hc, hq]
      rcases fixFold_mem l _ hs1 hl2 with e | ⟨m, _, o⟩
      · rw [e]; exact hstep
      · cases hq : outranks x (fixFold (if x.checkLoops && outranks x s0 then x else s0) l) with
        | false => rfl
        | true =>
          have := outranks_trans hy (hl2 _ m) hs1 hq o
          rw [hstep] at this
          exact absurd this (by decide)
    · exact ih _ hs1 hl2 x hm hc

/-- The start does not outrank the result of the loop. -/
theorem fixFold_start {n : Nat} (l : List treeInfo) (s0 : treeInfo) (h0 : s0.WF n)
    (hl : ∀ x ∈ l, x.WF n) : outranks s0 (fixFold s0 l) = false := by
  rcases fixFold_mem l s0 h0 hl with e | ⟨m, _, o⟩
  · rw [e]; exact outranks_irrefl _
  · exact outranks_asymm (hl _ m) h0 o

theorem foldlM_fixStep {n : Nat} (l : List treeInfo) (s0 : treeInfo) (h0 : s0.WF n)
    (hl : ∀ x ∈ l, x.WF n) : List.foldlM fixStep s0 l = some (fixFold s0 l) := by
  induction l generalizing s0 with
  | nil => rfl
  | cons x l ih =>
    have hx : x.WF n := hl x (List.mem_cons_self _ _)
    have hl2 : ∀ y ∈ l, y.WF n := fun y hy => hl y (List.mem_cons_of_mem _ hy)
    rw [List.foldlM_cons, fixStep_eq h0 hx, fixFold_cons]
    have hs1 : (if x.checkLoops && outranks x s0 then x else s0).WF n := by
      split
      · exact hx
      · exact h0
    simpa using ih _ hs1 hl2

/-! ## Map operations -/

theorem mem_mapSet {β : Type} (m : List (publicKey × β)) (key : publicKey) (v : β)
    (p : publicKey × β) :
    p ∈ mapSet m key v → p = (key, v) ∨ (p ∈ m ∧ p.1 ≠ key) := by
  unfold mapSet
  split
  · intro h
    obtain ⟨q, hq, e⟩ := List.mem_map.1 h
    by_cases hk : q.1 = key
    · rw [if_pos hk] at e
      exact Or.inl e.symm
    · rw [if_neg hk] at e
      subst e
      exact Or.inr ⟨hq, hk⟩
  · rename_i hany
    intro h
    rcases List.mem_append.1 h with h | h
    · refine Or.inr ⟨h, fun hk => hany ?_⟩
      exact List.any_eq_true.2 ⟨p, h, by simpa using hk⟩
    · exact Or.inl (by simpa using h)

theorem mem_mapSet_of_ne {β : Type} (m : List (publicKey × β)) (key : publicKey) (v : β)
    (p : publicKey × β) (hp : p ∈ m) (hk : p.1 ≠ key) : p ∈ mapSet m key v := by
  unfold mapSet
  split
  · exact List.mem_map.2 ⟨p, hp, by rw [if_neg hk]⟩
  · exact List.mem_append_left _ hp

theorem mem_mapDelete {β : Type} (m : List (publicKey × β)) (key : publicKey)
    (p : publicKey × β) : p ∈ mapDelete m key ↔ p ∈ m ∧ p.1 ≠ key := by
  simp [mapDelete]

/-! ## The method `_fix` on well-formed states -/

theorem lexLt_negtrans (a b c : List Nat) (hab : a.length = b.length)
    (h1 : lexLt a b = false) (h2 : lexLt b c = false) : lexLt a c = false := by
  cases h : lexLt a c with
  | false => rfl
  | true =>
    cases h3 : lexLt b a with
    | true =>
      have := lexLt_trans _ _ _ h3 h
      rw [h2] at this
      exact absurd this (by decide)
    | false =>
      have e := lexLt_connected a b hab h1 h3
      rw [e, h2] at h
      exact absurd h (by decide)

theorem outranks_root {x s : treeInfo} (h : outranks x s = true) :
    lexLt x.root s.root = false := by
  simp only [outranks, Bool.or_eq_true, Bool.and_eq_true, Bool.not_eq_true'] at h
  rcases h with h | h
  · exact lexLt_asymm _ _ h
  · exact h.1

theorem not_outranks_root {x s : treeInfo} (h : outranks x s = false) :
    lexLt s.root x.root = false := by
  simp only [outranks, Bool.or_eq_false_iff] at h
  exact h.1

theorem degenerate_WF {n : Nat} {pk : publicKey} (h : pk.length = n) :
    treeInfo.WF n { root := pk, hops := [] } :=
  ⟨h, by intro hop hm; simp at hm⟩

theorem fixStartPure_WF {n : Nat} {t : dhtree} (h : t.WF n) : (fixStartPure t).WF n := by
  unfold fixStartPure
  cases hs : t.self with
  | none => exact degenerate_WF h.1
  | some s =>
    simp only
    split
    · exact degenerate_WF h.1
    · exact h.2.2 s hs

theorem fixStart_eq {n : Nat} {t : dhtree} (h : t.WF n) :
    fixStart t = some (fixStartPure t) := by
  unfold fixStart fixStartPure
  cases hs : t.self with
  | none => rfl
  | some s =>
    have hw := h.2.2 s hs
    simp only
    rw [treeLess_eq_lexLt _ _ (by rw [hw.1, h.1])]
    cases lexLt s.root t.corePublicKey <;> rfl

theorem fixStartPure_root (t : dhtree) :
    lexLt (fixStartPure t).root t.corePublicKey = false := by
  unfold fixStartPure
  cases hs : t.self with
  | none => exact lexLt_irrefl _
  | some s =>
    simp only
    cases hl : lexLt s.root t.corePublicKey with
    | true => simpa using lexLt_irrefl _
    | false => simpa using hl

theorem WF_values {n : Nat} {t : dhtree} (h : t.WF n) :
    ∀ x ∈ t.tinfos.map Prod.snd, x.WF n := by
  intro x hx
  obtain ⟨p, hp, e⟩ := List.mem_map.1 hx
  exact e ▸ h.2.1 p hp

/-- On a well-formed state `_fix` returns, and its result is the pure fold. -/
theorem fix_eq {n : Nat} {t : dhtree} (h : t.WF n) :
    t._fix = some { t with self := some (fixFold (fixStartPure t) (t.tinfos.map Prod.snd)) } := by
  unfold dhtree._fix
  rw [fixStart_eq h]
  simp only [Option.some_bind]
  rw [foldlM_fixStep _ _ (fixStartPure_WF h) (WF_values h)]
  rfl

theorem fixFold_eq_start (l : List treeInfo) (s0 : treeInfo)
    (h : ∀ x ∈ l, x.checkLoops = true → outranks x s0 = false) : fixFold s0 l = s0 := by
  induction l with
  | nil => rfl
  | cons x l ih =>
    rw [fixFold_cons]
    have hx : (x.checkLoops && outranks x s0) = false := by
      cases hc : x.checkLoops with
      | false => rfl
      | true => simpa using h x (List.mem_cons_self _ _) hc
    rw [hx]
    exact ih (fun y hy => h y (List.mem_cons_of_mem _ hy))

/-- The method `_fix` establishes the invariant from any well-formed state whose
entries are stored under their source keys and whose `self`, when present, is
anchored. -/
theorem fix_stable {n : Nat} {t : dhtree} (h : t.WF n)
    (hk : ∀ p ∈ t.tinfos, p.1 = p.2.from_)
    (ha : ∀ s, t.self = some s → selfAnchored t s) :
    ∃ t2, t._fix = some t2 ∧ Stable n t.corePublicKey t2 ∧ t2.tinfos = t.tinfos ∧
      t2.dinfos = t.dinfos := by
  refine ⟨_, fix_eq h, ?_, rfl, rfl⟩
  have hs0 := fixStartPure_WF h
  have hl := WF_values h
  have hf := fixFold_WF _ _ hs0 hl
  refine ⟨rfl, ⟨h.1, h.2.1, ?_⟩, hk, _, rfl, ?_, ?_, ?_⟩
  · intro s hs
    simp only [Option.some.injEq] at hs
    exact hs ▸ hf
  · have h1 : lexLt (fixFold (fixStartPure t) (t.tinfos.map Prod.snd)).root
        (fixStartPure t).root = false := not_outranks_root (fixFold_start _ _ hs0 hl)
    exact lexLt_negtrans _ _ _ (by rw [hf.1, hs0.1]) h1 (fixStartPure_root t)
  · intro p hp hc
    exact fixFold_max _ _ hs0 hl p.2 (List.mem_map.2 ⟨p, hp, rfl⟩) hc
  · rcases fixFold_mem _ _ hs0 hl with e | ⟨m, c, _⟩
    · rw [e]
      unfold fixStartPure
      cases hs : t.self with
      | none => exact Or.inl rfl
      | some s =>
        simp only
        split
        · exact Or.inl rfl
        · exact ha s hs
    · obtain ⟨p, hp, e⟩ := List.mem_map.1 m
      refine Or.inr ⟨?_, c⟩
      have hkp := hk p hp
      rw [e] at hkp
      have : p = ((fixFold (fixStartPure t) (t.tinfos.map Prod.snd)).from_,
          fixFold (fixStartPure t) (t.tinfos.map Prod.snd)) := by
        rw [← hkp, ← e]
      rw [← this]
      exact hp

/-! ## The invariant along the handlers -/

theorem updateIn_stable {n : Nat} {pk : publicKey} {t : dhtree} (h : Stable n pk t)
    (info : treeInfo) (hi : info.WF n) (order : List (publicKey × treeInfo))
    (hperm : (mapSet t.tinfos info.from_ info).Perm order) :
    ∃ t2, t.updateIn info order = some t2 ∧ Stable n pk t2 ∧
      t2.tinfos = order ∧ t2.dinfos = t.dinfos := by
  obtain ⟨s, hs, _, _, hanch⟩ := h.self_ok
  have hw := h.wf
  have key : ∃ t2, dhtree._fix
      { t with
        tinfos := order,
        self := if info.from_ = s.from_ then none else some s } = some t2 ∧
      Stable n t.corePublicKey t2 ∧ t2.tinfos = order ∧ t2.dinfos = t.dinfos := by
    apply fix_stable
    · refine ⟨hw.1, ?_, ?_⟩
      · intro p hp
        rcases mem_mapSet _ _ _ _ (hperm.mem_iff.2 hp) with e | ⟨hm, _⟩
        · rw [e]; exact hi
        · exact hw.2.1 p hm
      · intro s2 hs2
        simp only at hs2
        split at hs2
        · exact absurd hs2 (by simp)
        · simp only [Option.some.injEq] at hs2
          exact hs2 ▸ hw.2.2 s hs
    · intro p hp
      rcases mem_mapSet _ _ _ _ (hperm.mem_iff.2 hp) with e | ⟨hm, _⟩
      · rw [e]
      · exact h.keyed p hm
    · intro s2 hs2
      simp only at hs2
      split at hs2
      · exact absurd hs2 (by simp)
      · rename_i hne
        simp only [Option.some.injEq] at hs2
        subst hs2
        rcases hanch with e | ⟨hm, hc⟩
        · exact Or.inl e
        · exact Or.inr ⟨hperm.mem_iff.1
            (mem_mapSet_of_ne _ _ _ _ hm (fun e => hne e.symm)), hc⟩
  obtain ⟨t2, e, st, r1, r2⟩ := key
  refine ⟨t2, ?_, h.pk_eq ▸ st, r1, r2⟩
  unfold dhtree.updateIn
  simp only [hs]
  exact e

theorem removeIn_stable {n : Nat} {pk : publicKey} {t : dhtree} (h : Stable n pk t)
    (info : treeInfo) (order : List (publicKey × treeInfo))
    (hperm : (mapDelete t.tinfos info.from_).Perm order) :
    ∃ t2, t.removeIn info order = some t2 ∧ Stable n pk t2 ∧
      t2.tinfos = order ∧ t2.dinfos = t.dinfos := by
  obtain ⟨s, hs, hroot, hmax, hanch⟩ := h.self_ok
  have hw := h.wf
  have hsub : ∀ p ∈ order, p ∈ t.tinfos := fun p hp =>
    ((mem_mapDelete _ _ _).1 (hperm.mem_iff.2 hp)).1
  unfold dhtree.removeIn
  simp only [hs]
  by_cases hkey : info.from_ = s.from_
  · rw [if_pos hkey]
    have key : ∃ t2, dhtree._fix
        { t with tinfos := order, self := none } = some t2 ∧
        Stable n t.corePublicKey t2 ∧ t2.tinfos = order ∧ t2.dinfos = t.dinfos := by
      apply fix_stable
      · refine ⟨hw.1, ?_, ?_⟩
        · intro p hp
          exact hw.2.1 p (hsub p hp)
        · intro s2 hs2
          exact absurd hs2 (by simp)
      · intro p hp
        exact h.keyed p (hsub p hp)
      · intro s2 hs2
        exact absurd hs2 (by simp)
    obtain ⟨t2, e, st, r1, r2⟩ := key
    exact ⟨t2, e, h.pk_eq ▸ st, r1, r2⟩
  · rw [if_neg hkey]
    refine ⟨_, rfl, ⟨h.pk_eq, ⟨hw.1, ?_, fun s2 h2 => hw.2.2 s2 (hs.trans h2)⟩, ?_, s, rfl,
      hroot, ?_, ?_⟩, rfl, rfl⟩
    · intro p hp
      exact hw.2.1 p (hsub p hp)
    · intro p hp
      exact h.keyed p (hsub p hp)
    · intro p hp hc
      exact hmax p (hsub p hp) hc
    · rcases hanch with e | ⟨hm, hc⟩
      · exact Or.inl e
      · exact Or.inr ⟨hperm.mem_iff.1
          ((mem_mapDelete _ _ _).2 ⟨hm, fun e => hkey e.symm⟩), hc⟩

theorem init_stable {n : Nat} {pk : publicKey} (hpk : pk.length = n) :
    Stable n pk (dhtree.init pk) := by
  refine ⟨rfl, ⟨hpk, ?_, ?_⟩, ?_, _, rfl, lexLt_irrefl _, ?_, Or.inl rfl⟩
  · intro p hp; simp [dhtree.init] at hp
  · intro s hs
    simp only [dhtree.init, Option.some.injEq] at hs
    exact hs ▸ degenerate_WF hpk
  · intro p hp; simp [dhtree.init] at hp
  · intro p hp; simp [dhtree.init] at hp

/-- Every reachable state satisfies the invariant, when the local key and the
ingested records have keys of length `n`. -/
theorem reachable_stable {n : Nat} {pk : publicKey} {P : treeInfo → Prop}
    (hP : ∀ info, P info → info.WF n) (hpk : pk.length = n) {t : dhtree}
    (h : Reachable P pk t) : Stable n pk t := by
  induction h with
  | init => exact init_stable hpk
  | update info order _ hi hperm he ih =>
    obtain ⟨t3, e3, st, _⟩ := updateIn_stable ih info (hP info hi) order hperm
    rw [he] at e3
    simp only [Option.some.injEq] at e3
    exact e3 ▸ st
  | remove info order _ hperm he ih =>
    obtain ⟨t3, e3, st, _⟩ := removeIn_stable ih info order hperm
    rw [he] at e3
    simp only [Option.some.injEq] at e3
    exact e3 ▸ st
  | reorder l _ hperm ih =>
    obtain ⟨s, hs, hroot, hmax, hanch⟩ := ih.self_ok
    refine ⟨ih.pk_eq, ⟨ih.wf.1, ?_, ih.wf.2.2⟩, ?_, s, hs, hroot, ?_, ?_⟩
    · intro p hp; exact ih.wf.2.1 p (hperm.mem_iff.2 hp)
    · intro p hp; exact ih.keyed p (hperm.mem_iff.2 hp)
    · intro p hp hc; exact hmax p (hperm.mem_iff.2 hp) hc
    · rcases hanch with e | ⟨hm, hc⟩
      · exact Or.inl e
      · exact Or.inr ⟨hperm.mem_iff.1 hm, hc⟩
  | setDinfos d _ ih =>
    exact ⟨ih.pk_eq, ih.wf, ih.keyed, ih.self_ok⟩

/-! ## Root election -/

theorem nodeAfterTwo_reachable (me p q b1 b2 : publicKey)
    (h1 : (dhtree.init me).update (peerClaim p me) = some (nodeAfterOne me p b1))
    (h2 : (nodeAfterOne me p b1).update (peerClaim q me) = some (nodeAfterTwo me p q b2))
    (hp : (peerClaim p me).WF me.length) (hq : (peerClaim q me).WF me.length) :
    Reachable (treeInfo.WF me.length) me (nodeAfterTwo me p q b2) :=
  Reachable.update _ _ (Reachable.update _ _ Reachable.init hp (List.Perm.refl _) h1) hq
    (List.Perm.refl _) h2

/-- C1: in every state reachable from `init` through `update` and `remove` (in
any iteration order of the map), with keys of one length, `self` is present and
`self.root` is the greatest key among the local key and the roots of the stored
claims passing `checkLoops`: it is one of them and `treeLess` puts none of them
above it. -/
theorem reachable_root_is_greatest (n : Nat) (pk : publicKey) (t : dhtree)
    (hpk : pk.length = n) (h : Reachable (treeInfo.WF n) pk t) :
    t.corePublicKey = pk ∧
    ∃ s, t.self = some s ∧
      (s.root = pk ∨ ∃ p ∈ t.tinfos, p.2.checkLoops = true ∧ p.2.root = s.root) ∧
      treeLess s.root pk = some false ∧
      ∀ p ∈ t.tinfos, p.2.checkLoops = true → treeLess s.root p.2.root = some false := by
  have st := reachable_stable (fun _ hi => hi) hpk h
  obtain ⟨s, hs, hroot, hmax, hanch⟩ := st.self_ok
  have hsw : s.WF n := st.wf.2.2 s hs
  refine ⟨st.pk_eq, s, hs, ?_, ?_, ?_⟩
  · rcases hanch with e | ⟨hm, hc⟩
    · left; rw [e, st.pk_eq]
    · exact Or.inr ⟨_, hm, hc, rfl⟩
  · rw [treeLess_eq_lexLt _ _ (by rw [hsw.1, hpk]), ← st.pk_eq, hroot]
  · intro p hp hc
    rw [treeLess_eq_lexLt _ _ (by rw [hsw.1, (st.wf.2.1 p hp).1]),
      not_outranks_root (hmax p hp hc)]

/-- C1 scenario: three fully connected nodes with keys `[1] < [2] < [3]`, each
ingesting the other two one-hop claims, all end with `self.root = [3]`. -/
theorem reachable_root_is_greatest_witness :
    (∃ s, (nodeAfterTwo [1] [2] [3] [3]).self = some s ∧ s.root = [3] ∧
      treeLess s.root [1] = some false) ∧
    (∃ s, (nodeAfterTwo [2] [1] [3] [3]).self = some s ∧ s.root = [3] ∧
      treeLess s.root [2] = some false) ∧
    (∃ s, (nodeAfterTwo [3] [1] [2] [3]).self = some s ∧ s.root = [3] ∧
      treeLess s.root [3] = some false) := by
  have hA := reachable_root_is_greatest 1 [1] (nodeAfterTwo [1] [2] [3] [3]) rfl
    (nodeAfterTwo_reachable [1] [2] [3] [2] [3] (by decide) (by decide) (by decide) (by decide))
  have hB := reachable_root_is_greatest 1 [2] (nodeAfterTwo [2] [1] [3] [3]) rfl
    (nodeAfterTwo_reachable [2] [1] [3] [2] [3] (by decide) (by decide) (by decide) (by decide))
  have hC := reachable_root_is_greatest 1 [3] (nodeAfterTwo [3] [1] [2] [3]) rfl
    (nodeAfterTwo_reachable [3] [1] [2] [3] [3] (by decide) (by decide) (by decide) (by decide))
  obtain ⟨_, sA, eA, _, lA, _⟩ := hA
  obtain ⟨_, sB, eB, _, lB, _⟩ := hB
  obtain ⟨_, sC, eC, _, lC, _⟩ := hC
  refine ⟨⟨sA, eA, ?_, lA⟩, ⟨sB, eB, ?_, lB⟩, ⟨sC, eC, ?_, lC⟩⟩
  · have : sA = peerClaim [3] [1] := by
      have := eA.symm; simp [nodeAfterTwo] at this; exact this
    rw [this]; rfl
  · have : sB = peerClaim [3] [2] := by
      have := eB.symm; simp [nodeAfterTwo] at this; exact this
    rw [this]; rfl
  · have : sC = { root := [3], hops := [] } := by
      have := eC.symm; simp [nodeAfterTwo] at this; exact this
    rw [this]

theorem mapSet_ne_nil {β : Type} (m : List (publicKey × β)) (key : publicKey) (v : β) :
    mapSet m key v ≠ [] := by
  unfold mapSet
  split
  · rename_i hany
    cases m with
    | nil => simp at hany
    | cons p rest => simp
  · simp

/-- C3: on every state on which the actor runs `_fix` (inside `update`, inside
`remove`, or re-run on a reachable state; keys of one length), `_fix` returns
and afterwards `self` is present; and if `tinfos` is empty then `self` is the
degenerate record rooted at the local key. -/
theorem fix_self_present (n : Nat) (pk : publicKey) (t : dhtree) (hpk : pk.length = n)
    (h : FixCalled (treeInfo.WF n) pk t) :
    ∃ t2 s, t._fix = some t2 ∧ t2.self = some s ∧
      (t.tinfos = [] → s = { root := pk, hops := [] }) := by
  cases h with
  | @update t0 info s order hr hi hperm hs =>
    have st := reachable_stable (fun _ hw => hw) hpk hr
    have hw := st.wf
    have hwf : dhtree.WF n
        { t0 with tinfos := order, self := if info.from_ = s.from_ then none else some s } := by
      refine ⟨hw.1, ?_, ?_⟩
      · intro p hp
        rcases mem_mapSet _ _ _ _ (hperm.mem_iff.2 hp) with e | ⟨hm, _⟩
        · rw [e]; exact hi
        · exact hw.2.1 p hm
      · intro s2 hs2
        simp only at hs2
        split at hs2
        · exact absurd hs2 (by simp)
        · simp only [Option.some.injEq] at hs2
          exact hs2 ▸ hw.2.2 s hs
    refine ⟨_, _, fix_eq hwf, rfl, ?_⟩
    intro he
    simp only at he
    rw [he] at hperm
    exact absurd (List.Perm.eq_nil hperm) (mapSet_ne_nil _ _ _)
  | @remove t0 info s order hr hperm hs hkey =>
    have st := reachable_stable (fun _ hw => hw) hpk hr
    have hw := st.wf
    have hwf : dhtree.WF n { t0 with tinfos := order, self := none } := by
      refine ⟨hw.1, ?_, ?_⟩
      · intro p hp
        exact hw.2.1 p ((mem_mapDelete _ _ _).1 (hperm.mem_iff.2 hp)).1
      · intro s2 hs2
        exact absurd hs2 (by simp)
    refine ⟨_, _, fix_eq hwf, rfl, ?_⟩
    intro he
    simp only at he
    rw [he, List.map_nil, fixFold_nil]
    simp only [fixStartPure]
    rw [st.pk_eq]
  | settled hr =>
    have st := reachable_stable (fun _ hw => hw) hpk hr
    refine ⟨_, _, fix_eq st.wf, rfl, ?_⟩
    intro he
    obtain ⟨s0, hs0, _, _, hanch⟩ := st.self_ok
    rw [he, List.map_nil, fixFold_nil]
    rcases hanch with e | ⟨hm, _⟩
    · unfold fixStartPure
      rw [hs0]
      simp only
      split
      · rw [st.pk_eq]
      · rw [e, st.pk_eq]
    · rw [he] at hm
      simp at hm

/-- C3 instance: node `[1]` holds only the claim of peer `[2]` and has settled on
it; when that peer is removed, `_fix` runs on the state with an empty map and a
nil `self`, and leaves the degenerate record rooted at `[1]`. -/
theorem fix_self_present_witness :
    ∃ t2 s, dhtree._fix { nodeAfterOne [1] [2] [2] with tinfos := [], self := none } = some t2 ∧
      t2.self = some s ∧ s = { root := [1], hops := [] } := by
  obtain ⟨t2, s, e, hs, himp⟩ := fix_self_present 1 [1]
    { nodeAfterOne [1] [2] [2] with tinfos := [], self := none } rfl
    (FixCalled.remove (t := nodeAfterOne [1] [2] [2]) (peerClaim [2] [1]) (peerClaim [2] [1]) []
      (Reachable.update (t := dhtree.init [1]) (peerClaim [2] [1]) _ Reachable.init
        (by decide) (List.Perm.refl _) (by decide))
      (by decide) rfl rfl)
  exact ⟨t2, s, e, hs, himp rfl⟩

/-- On a state satisfying the invariant `_fix` returns and keeps `self`. -/
theorem fix_keeps_self {n : Nat} {pk : publicKey} {t : dhtree} (st : Stable n pk t)
    (s : treeInfo) (hs : t.self = some s) : ∃ t3, t._fix = some t3 ∧ t3.self = some s := by
  refine ⟨_, fix_eq st.wf, ?_⟩
  obtain ⟨s2, hs2, hroot, hmax, _⟩ := st.self_ok
  have e : s2 = s := by
    rw [hs] at hs2
    exact (Option.some.inj hs2).symm
  subst e
  have hstart : fixStartPure t = s2 := by
    unfold fixStartPure
    rw [hs2]
    simp only [hroot]
    rfl
  simp only [hstart]
  rw [fixFold_eq_start]
  intro x hx hc
  obtain ⟨p, hp, e⟩ := List.mem_map.1 hx
  subst e
  exact hmax p hp hc

/-- C4: in every state reachable from `init` through `update` and `remove`, with
keys of one length, removing a peer whose key differs from `self.from()` returns
a state with the same `self` (whatever the order `order` of the remaining map
entries), and `_fix` run on that state returns and selects that same `self`
again. -/
theorem remove_other_keeps_self (n : Nat) (pk : publicKey) (t : dhtree) (s info : treeInfo)
    (order : List (publicKey × treeInfo)) (hpk : pk.length = n)
    (h : Reachable (treeInfo.WF n) pk t) (hs : t.self = some s)
    (hne : info.from_ ≠ s.from_) (hperm : (mapDelete t.tinfos info.from_).Perm order) :
    ∃ t2, t.removeIn info order = some t2 ∧ t2.self = some s ∧ t2.tinfos = order ∧
      ∃ t3, t2._fix = some t3 ∧ t3.self = some s := by
  have st := reachable_stable (fun _ hi => hi) hpk h
  obtain ⟨t2, e2, st2, r1, _⟩ := removeIn_stable st info order hperm
  have hself : t2.self = some s := by
    unfold dhtree.removeIn at e2
    simp only [hs, if_neg hne, Option.some.injEq] at e2
    rw [← e2]
  exact ⟨t2, e2, hself, r1, fix_keeps_self st2 s hself⟩

/-- C4 instance: node `[1]` holding the claims of `[2]` and `[3]` has settled on
root `[3]`; removing peer `[2]` keeps `self`. -/
theorem remove_other_keeps_self_witness :
    ∃ t2, (nodeAfterTwo [1] [2] [3] [3]).remove (peerClaim [2] [1]) = some t2 ∧
      t2.self = some (peerClaim [3] [1]) ∧
      t2.tinfos = [([3], peerClaim [3] [1])] ∧
      ∃ t3, t2._fix = some t3 ∧ t3.self = some (peerClaim [3] [1]) :=
  remove_other_keeps_self 1 [1] (nodeAfterTwo [1] [2] [3] [3]) (peerClaim [3] [1])
    (peerClaim [2] [1]) [([3], peerClaim [3] [1])] rfl
    (nodeAfterTwo_reachable [1] [2] [3] [2] [3] (by decide) (by decide) (by decide) (by decide))
    rfl (by decide) (List.Perm.refl _)

/-- Two records that both satisfy the characterisation of the loop result (the
start, or a loop-free claim outranking it; not outranked by any loop-free claim)
coincide when the claims have pairwise distinct source keys. -/
theorem fixResult_unique {n : Nat} (l : List treeInfo) (s0 f g : treeInfo)
    (hl : ∀ x ∈ l, x.WF n) (hd : (l.map treeInfo.from_).Nodup)
    (hf : f = s0 ∨ (f ∈ l ∧ f.checkLoops = true ∧ outranks f s0 = true))
    (hfm : ∀ x ∈ l, x.checkLoops = true → outranks x f = false)
    (hg : g = s0 ∨ (g ∈ l ∧ g.checkLoops = true ∧ outranks g s0 = true))
    (hgm : ∀ x ∈ l, x.checkLoops = true → outranks x g = false) : f = g := by
  rcases hf with ef | ⟨mf, cf, of⟩ <;> rcases hg with eg | ⟨mg, cg, og⟩
  · rw [ef, eg]
  · have := hfm g mg cg
    rw [ef, og] at this
    exact absurd this (by decide)
  · have := hgm f mf cf
    rw [eg, of] at this
    exact absurd this (by decide)
  · have tie := outranks_tie (hl f mf) (hl g mg) (hgm f mf cf) (hfm g mg cg)
    exact List.inj_on_of_nodup_map hd mf mg tie.2.2

/-- C2: for a fixed starting `self` and fixed peer claims with pairwise distinct
`from()` keys (all keys of one length), `_fix` returns the same `self` for every
iteration order of `tinfos`; that `self` is a candidate (the start, which is the
old `self` or the degenerate fallback, or a stored claim passing `checkLoops`)
that no candidate outranks in the order "greater root, then fewer hops, then
greater `from()`". -/
theorem fix_order_independent (n : Nat) (t : dhtree) (l2 : List (publicKey × treeInfo))
    (hwf : t.WF n) (hperm : t.tinfos.Perm l2)
    (hd : (t.tinfos.map (fun p => p.2.from_)).Nodup) :
    ∃ t1 t2 s0 s, t._fix = some t1 ∧ dhtree._fix { t with tinfos := l2 } = some t2 ∧
      fixStart t = some s0 ∧ t1.self = some s ∧ t2.self = some s ∧
      (s = s0 ∨ ∃ p ∈ t.tinfos, p.2 = s ∧ p.2.checkLoops = true) ∧
      outranks s0 s = false ∧
      ∀ p ∈ t.tinfos, p.2.checkLoops = true → outranks p.2 s = false := by
  have hwf2 : dhtree.WF n { t with tinfos := l2 } :=
    ⟨hwf.1, fun p hp => hwf.2.1 p (hperm.mem_iff.2 hp), hwf.2.2⟩
  have hs0 := fixStartPure_WF hwf
  have hl := WF_values hwf
  have hl2 := WF_values hwf2
  have hpm : (t.tinfos.map Prod.snd).Perm (l2.map Prod.snd) := hperm.map _
  have hd1 : ((t.tinfos.map Prod.snd).map treeInfo.from_).Nodup := by
    rw [List.map_map]
    exact hd
  have e12 : fixFold (fixStartPure t) (l2.map Prod.snd)
      = fixFold (fixStartPure t) (t.tinfos.map Prod.snd) := by
    apply fixResult_unique (t.tinfos.map Prod.snd) (fixStartPure t) _ _ hl hd1
    · rcases fixFold_mem _ _ hs0 hl2 with e | ⟨m, c, o⟩
      · exact Or.inl e
      · exact Or.inr ⟨hpm.mem_iff.2 m, c, o⟩
    · intro x hx hc
      exact fixFold_max _ _ hs0 hl2 x (hpm.mem_iff.1 hx) hc
    · exact fixFold_mem _ _ hs0 hl
    · exact fixFold_max _ _ hs0 hl
  refine ⟨_, _, fixStartPure t, fixFold (fixStartPure t) (t.tinfos.map Prod.snd), fix_eq hwf,
    fix_eq hwf2, fixStart_eq hwf, rfl, ?_, ?_, fixFold_start _ _ hs0 hl, ?_⟩
  · show some (fixFold (fixStartPure t) (l2.map Prod.snd)) = _
    rw [e12]
  · rcases fixFold_mem _ _ hs0 hl with e | ⟨m, c, _⟩
    · exact Or.inl e
    · obtain ⟨p, hp, e⟩ := List.mem_map.1 m
      exact Or.inr ⟨p, hp, e, e ▸ c⟩
  · intro p hp hc
    exact fixFold_max _ _ hs0 hl p.2 (List.mem_map.2 ⟨p, hp, rfl⟩) hc

/-- C2 instance: node `[1]` with the claims of `[2]` and `[3]`, iterated in the
stored and in the reverse order, settles on the claim of `[3]` both times. -/
theorem fix_order_independent_witness :
    ∃ t1 t2, (nodeAfterTwo [1] [2] [3] [2])._fix = some t1 ∧
      dhtree._fix { nodeAfterTwo [1] [2] [3] [2] with
        tinfos := [([3], peerClaim [3] [1]), ([2], peerClaim [2] [1])] } = some t2 ∧
      t1.self = some (peerClaim [3] [1]) ∧ t2.self = some (peerClaim [3] [1]) := by
  obtain ⟨t1, t2, s0, s, e1, e2, _, h1, h2, _⟩ :=
    fix_order_independent 1 (nodeAfterTwo [1] [2] [3] [2])
      [([3], peerClaim [3] [1]), ([2], peerClaim [2] [1])]
      ⟨rfl, by decide, fun s hs => Option.some.inj hs ▸ (by decide)⟩
      (List.Perm.swap _ _ []) (by decide)
  have e : t1 = nodeAfterTwo [1] [2] [3] [3] := by
    have : (nodeAfterTwo [1] [2] [3] [2])._fix = some (nodeAfterTwo [1] [2] [3] [3]) := by decide
    rw [this] at e1
    exact (Option.some.inj e1).symm
  have hs : s = peerClaim [3] [1] := by
    rw [e] at h1
    exact (Option.some.inj h1).symm
  exact ⟨t1, t2, e1, e2, hs ▸ h1, hs ▸ h2⟩

/-! ## Tree distance and the tree lookup -/

theorem lastCommonIdx_ge (a b : List treeHop) (idx lca : Int) :
    min lca idx ≤ lastCommonIdx a b idx lca := by
  induction a generalizing b idx lca with
  | nil => simp [lastCommonIdx]
  | cons x xs ih =>
    cases b with
    | nil => simp [lastCommonIdx]
    | cons y ys =>
      simp only [lastCommonIdx]
      split
      · exact min_le_left _ _
      · have := ih ys (idx + 1) idx
        have h2 : min idx (idx + 1) = idx := min_eq_left (by omega)
        rw [h2] at this
        exact le_trans (min_le_right _ _) this

theorem dist_of_ne_root (info dest : treeInfo) (h : info.root ≠ dest.root) :
    info.dist dest = maxInt := by
  simp [treeInfo.dist, h]

theorem dist_le_of_root (info dest : treeInfo) (h : info.root = dest.root) :
    info.dist dest ≤ (info.hops.length : Int) + dest.hops.length + 2 := by
  simp only [treeInfo.dist, h, ne_eq, not_true_eq_false, if_false]
  split
  · have := lastCommonIdx_ge dest.hops info.hops 0 (-1)
    simp at this
    omega
  · have := lastCommonIdx_ge info.hops dest.hops 0 (-1)
    simp at this
    omega

theorem dist_lt_maxInt (info dest : treeInfo) (h : info.root = dest.root)
    (h1 : info.hops.length < maxHops) (h2 : dest.hops.length < maxHops) :
    info.dist dest < maxInt := by
  have := dist_le_of_root info dest h
  unfold maxHops at h1 h2
  unfold maxInt
  omega

theorem treeLookupStep_eq {n : Nat} (dest : treeInfo) (acc : treeInfo × Int) (info : treeInfo)
    (ha : acc.1.from_.length = n) (hi : info.from_.length = n) (hh : info.hops ≠ []) :
    treeLookupStep dest acc info = some (treePickStep acc (info, peerDist dest info)) := by
  unfold treeLookupStep treePickStep peerDist
  cases hops : info.hops with
  | nil => exact absurd hops hh
  | cons h hs =>
    simp only [stripLast, Option.some_bind]
    rw [treeLess_eq_lexLt _ _ (by rw [ha, hi])]
    by_cases h1 : treeInfo.dist { root := info.root, hops := (h :: hs).dropLast } dest < acc.2
    · simp [h1]
    · by_cases h2 : treeInfo.dist { root := info.root, hops := (h :: hs).dropLast } dest > acc.2
      · have h3 : treeInfo.dist { root := info.root, hops := (h :: hs).dropLast } dest ≠ acc.2 := by
          omega
        simp [h1, h2, h3]
      · have h3 : treeInfo.dist { root := info.root, hops := (h :: hs).dropLast } dest = acc.2 := by
          omega
        simp only [h1, h2, h3, if_false, Option.some_bind, false_or, true_and]
        cases lexLt acc.1.from_ info.from_ <;> simp

theorem treePickStep_from {n : Nat} (acc c : treeInfo × Int) (ha : acc.1.from_.length = n)
    (hc : c.1.from_.length = n) : (treePickStep acc c).1.from_.length = n := by
  unfold treePickStep
  split
  · exact hc
  · exact ha

theorem foldlM_treeLookupStep {n : Nat} (dest : treeInfo) (l : List treeInfo)
    (acc : treeInfo × Int) (ha : acc.1.from_.length = n)
    (hl : ∀ x ∈ l, x.from_.length = n ∧ x.hops ≠ []) :
    List.foldlM (treeLookupStep dest) acc l
      = some (List.foldl treePickStep acc (l.map fun x => (x, peerDist dest x))) := by
  induction l generalizing acc with
  | nil => rfl
  | cons x l ih =>
    have hx := hl x (List.mem_cons_self _ _)
    rw [List.foldlM_cons, treeLookupStep_eq dest acc x ha hx.1 hx.2]
    simp only [Option.some_bind, List.map_cons, List.foldl_cons]
    exact ih _ (treePickStep_from _ _ ha hx.1) (fun y hy => hl y (List.mem_cons_of_mem _ hy))

/-- The invariant of the lookup loop over the candidates `pre` seen so far. -/
theorem treePick_invariant (cs pre : List (treeInfo × Int)) (acc : treeInfo × Int)
    (h1 : acc ∈ pre) (h2 : ∀ c ∈ pre, acc.2 ≤ c.2)
    (h3 : ∀ c ∈ pre, c.2 = acc.2 → lexLt acc.1.from_ c.1.from_ = false) :
    List.foldl treePickStep acc cs ∈ pre ++ cs ∧
    (∀ c ∈ pre ++ cs, (List.foldl treePickStep acc cs).2 ≤ c.2) ∧
    (∀ c ∈ pre ++ cs, c.2 = (List.foldl treePickStep acc cs).2 →
      lexLt (List.foldl treePickStep acc cs).1.from_ c.1.from_ = false) := by
  induction cs generalizing pre acc with
  | nil =>
    simp only [List.foldl_nil, List.append_nil]
    exact ⟨h1, h2, h3⟩
  | cons x cs ih =>
    rw [List.foldl_cons]
    have e : pre ++ x :: cs = (pre ++ [x]) ++ cs := by simp
    rw [e]
    apply ih
    · unfold treePickStep
      split
      · simp
      · exact List.mem_append_left _ h1
    · intro c hc
      unfold treePickStep
      rcases List.mem_append.1 hc with hc | hc
      · have := h2 c hc
        split
        · rename_i hx
          rcases hx with hx | hx
          · exact le_of_lt (lt_of_lt_of_le hx this)
          · rw [hx.1]; exact this
        · exact this
      · simp only [List.mem_singleton] at hc
        subst hc
        split
        · exact le_refl _
        · rename_i hx
          simp only [not_or, not_lt] at hx
          exact hx.1
    · intro c hc
      unfold treePickStep
      rcases List.mem_append.1 hc with hc | hc
      · have hle := h2 c hc
        have htie := h3 c hc
        split
        · rename_i hx
          intro hceq
          rcases hx with hx | ⟨hx1, hx2⟩
          · omega
          · have := htie (by omega)
            cases h4 : lexLt x.1.from_ c.1.from_ with
            | false => rfl
            | true =>
              have := lexLt_trans _ _ _ hx2 h4
              simp_all
        · exact htie
      · simp only [List.mem_singleton] at hc
        subst hc
        split
        · intro _; exact lexLt_irrefl _
        · rename_i hx
          intro hceq
          simp only [not_or, not_lt, not_and, Bool.not_eq_true] at hx
          exact hx.2 hceq

theorem treeCandidates_dist (t : dhtree) (s dest : treeInfo)
    (hd : dest.hops.length < maxHops) (hsl : s.hops.length < maxHops)
    (hp : ∀ p ∈ t.tinfos, p.2.hops.length < maxHops) :
    ∀ c ∈ treeCandidates t s dest,
      (c.1.root ≠ dest.root → c.2 = maxInt) ∧ (c.1.root = dest.root → c.2 < maxInt) := by
  intro c hc
  rcases List.mem_cons.1 hc with e | hm
  · subst e
    exact ⟨dist_of_ne_root _ _, fun h => dist_lt_maxInt _ _ h hsl hd⟩
  · obtain ⟨p, hpm, e⟩ := List.mem_map.1 hm
    subst e
    refine ⟨fun h => dist_of_ne_root _ _ h, fun h => dist_lt_maxInt _ _ h ?_ hd⟩
    have := hp p hpm
    simp only [List.length_dropLast]
    omega

/-- C5: for every state with `self` present, keys of one length and peer claims
of at least one hop each (hop lists below `maxHops`), and every target `dest`:
if no candidate (`self`, or a stored claim) has the root of `dest`,
`_treeLookup` returns the local key; otherwise it returns `from()` of a
candidate whose distance to `dest` (`self` as is, stored claims with the final
hop stripped) is minimal over all candidates and whose `from()` is not below the
`from()` of any candidate at that distance under `treeLess`. -/
theorem treeLookup_min_dist (n : Nat) (t : dhtree) (s dest : treeInfo) (hwf : t.WF n)
    (hs : t.self = some s) (hh : ∀ p ∈ t.tinfos, p.2.hops ≠ [])
    (hd : dest.hops.length < maxHops) (hsl : s.hops.length < maxHops)
    (hp : ∀ p ∈ t.tinfos, p.2.hops.length < maxHops) :
    ((∀ c ∈ treeCandidates t s dest, c.1.root ≠ dest.root) →
      t._treeLookup dest = some t.corePublicKey) ∧
    ((∃ c ∈ treeCandidates t s dest, c.1.root = dest.root) →
      ∃ b ∈ treeCandidates t s dest, t._treeLookup dest = some b.1.from_ ∧
        (∀ c ∈ treeCandidates t s dest, b.2 ≤ c.2) ∧
        (∀ c ∈ treeCandidates t s dest, c.2 = b.2 →
          treeLess b.1.from_ c.1.from_ = some false)) := by
  have hsw : s.WF n := hwf.2.2 s hs
  have hl : ∀ x ∈ t.tinfos.map Prod.snd, x.from_.length = n ∧ x.hops ≠ [] := by
    intro x hx
    obtain ⟨p, hpm, e⟩ := List.mem_map.1 hx
    subst e
    exact ⟨(hwf.2.1 p hpm).from_length, hh p hpm⟩
  have hfold := foldlM_treeLookupStep dest (t.tinfos.map Prod.snd) (s, s.dist dest)
    hsw.from_length hl
  have hcs : (t.tinfos.map Prod.snd).map (fun x => (x, peerDist dest x))
      = t.tinfos.map (fun p => (p.2, peerDist dest p.2)) := by
    rw [List.map_map]; rfl
  rw [hcs] at hfold
  have hinv := treePick_invariant (t.tinfos.map (fun p => (p.2, peerDist dest p.2)))
    [(s, s.dist dest)] (s, s.dist dest) (by simp) (by simp)
    (by intro c hc _; simp only [List.mem_singleton] at hc; subst hc; exact lexLt_irrefl _)
  have hcand : [(s, s.dist dest)] ++ t.tinfos.map (fun p => (p.2, peerDist dest p.2))
      = treeCandidates t s dest := rfl
  rw [hcand] at hinv
  obtain ⟨hmem, hmin, htie⟩ := hinv
  have hdist := treeCandidates_dist t s dest hd hsl hp
  have hlook : t._treeLookup dest =
      if (List.foldl treePickStep (s, s.dist dest)
          (t.tinfos.map (fun p => (p.2, peerDist dest p.2)))).1.root ≠ dest.root
      then some t.corePublicKey
      else some (List.foldl treePickStep (s, s.dist dest)
          (t.tinfos.map (fun p => (p.2, peerDist dest p.2)))).1.from_ := by
    unfold dhtree._treeLookup
    rw [hs, Option.some_bind, hfold, Option.some_bind]
  have hfromlen : ∀ c ∈ treeCandidates t s dest, c.1.from_.length = n := by
    intro c hc
    rcases List.mem_cons.1 hc with e | hm
    · subst e; exact hsw.from_length
    · obtain ⟨p, hpm, e⟩ := List.mem_map.1 hm
      subst e
      exact (hwf.2.1 p hpm).from_length
  constructor
  · intro hall
    rw [hlook, if_pos (hall _ hmem)]
  · rintro ⟨c, hc, hroot⟩
    refine ⟨_, hmem, ?_, hmin, ?_⟩
    · rw [hlook, if_neg]
      intro hne
      have h1 := (hdist _ hmem).1 hne
      have h2 := (hdist c hc).2 hroot
      have h3 := hmin c hc
      omega
    · intro c2 hc2 he
      rw [treeLess_eq_lexLt _ _ (by rw [hfromlen _ hmem, hfromlen _ hc2]), htie c2 hc2 he]

/-- C5 instance: node `[1]` holding the claims of `[2]` and `[3]`, looking up a
target below root `[3]`, forwards to peer `[3]`. -/
theorem treeLookup_min_dist_witness :
    (nodeAfterTwo [1] [2] [3] [3])._treeLookup (peerClaim [3] [7]) = some [3] ∧
    ∃ b ∈ treeCandidates (nodeAfterTwo [1] [2] [3] [3]) (peerClaim [3] [1]) (peerClaim [3] [7]),
      (nodeAfterTwo [1] [2] [3] [3])._treeLookup (peerClaim [3] [7]) = some b.1.from_ ∧
      (∀ c ∈ treeCandidates (nodeAfterTwo [1] [2] [3] [3]) (peerClaim [3] [1])
          (peerClaim [3] [7]), b.2 ≤ c.2) ∧
      (∀ c ∈ treeCandidates (nodeAfterTwo [1] [2] [3] [3]) (peerClaim [3] [1])
          (peerClaim [3] [7]), c.2 = b.2 → treeLess b.1.from_ c.1.from_ = some false) :=
  ⟨by decide,
   (treeLookup_min_dist 1 (nodeAfterTwo [1] [2] [3] [3]) (peerClaim [3] [1]) (peerClaim [3] [7])
    ⟨rfl, by decide, fun s hs => Option.some.inj hs ▸ (by decide)⟩ rfl (by decide)
    (by decide) (by decide) (by decide)).2
    ⟨(peerClaim [3] [1], 4), by decide, rfl⟩⟩

theorem fix_tinfos {t t2 : dhtree} (h : t._fix = some t2) : t2.tinfos = t.tinfos := by
  unfold dhtree._fix at h
  cases h1 : fixStart t with
  | none => simp [h1] at h
  | some s0 =>
    rw [h1, Option.some_bind] at h
    cases h2 : List.foldlM fixStep s0 (t.tinfos.map Prod.snd) with
    | none => simp [h2] at h
    | some best =>
      rw [h2, Option.some_bind] at h
      rw [← Option.some.inj h]

theorem updateIn_tinfos {t t2 : dhtree} {info : treeInfo}
    {order : List (publicKey × treeInfo)} (h : t.updateIn info order = some t2) :
    t2.tinfos = order := by
  unfold dhtree.updateIn at h
  cases hs : t.self with
  | none => simp [hs] at h
  | some s =>
    simp only [hs] at h
    exact fix_tinfos h

theorem removeIn_tinfos {t t2 : dhtree} {info : treeInfo}
    {order : List (publicKey × treeInfo)} (h : t.removeIn info order = some t2) :
    t2.tinfos = order := by
  unfold dhtree.removeIn at h
  cases hs : t.self with
  | none => simp [hs] at h
  | some s =>
    simp only [hs] at h
    split at h
    · exact fix_tinfos h
    · rw [← Option.some.inj h]

/-- Every stored claim of a reachable state satisfies what the ingested records
satisfy. -/
theorem reachable_tinfos {P : treeInfo → Prop} {pk : publicKey} {t : dhtree}
    (h : Reachable P pk t) : ∀ p ∈ t.tinfos, P p.2 := by
  induction h with
  | init => intro p hp; simp [dhtree.init] at hp
  | update info order _ hi hperm he ih =>
    intro p hp
    rw [updateIn_tinfos he] at hp
    rcases mem_mapSet _ _ _ _ (hperm.mem_iff.2 hp) with e | ⟨hm, _⟩
    · rw [e]; exact hi
    · exact ih p hm
  | remove info order _ hperm he ih =>
    intro p hp
    rw [removeIn_tinfos he] at hp
    exact ih p ((mem_mapDelete _ _ _).1 (hperm.mem_iff.2 hp)).1
  | reorder l _ hperm ih =>
    intro p hp
    exact ih p (hperm.mem_iff.2 hp)
  | setDinfos d _ ih => exact ih

/-- C6 as stated fails: `update` accepts a record with zero hops, and on the
resulting state `_treeLookup` faults when it strips the final hop of that
record. -/
theorem treeLookup_faults_on_zero_hops :
    ∃ t, (dhtree.init [1]).update { root := [2], hops := [] } = some t ∧
      t.tinfos = [([2], { root := [2], hops := [] })] ∧
      t._treeLookup (peerClaim [2] [5]) = none :=
  ⟨{ corePublicKey := [1], tinfos := [([2], { root := [2], hops := [] })], dinfos := [],
     self := some { root := [2], hops := [] } }, by decide, rfl, by decide⟩

/-- C6 amended: in every state reached from `init` by `update` calls with records
of at least one hop (as `checkSigs` demands of a record before it is ingested)
and keys of one length, and by `remove` calls, `_treeLookup` returns a key for
every target record. -/
theorem treeLookup_returns (n : Nat) (pk : publicKey) (t : dhtree) (dest : treeInfo)
    (hpk : pk.length = n)
    (h : Reachable (fun info => info.WF n ∧ info.hops ≠ []) pk t) :
    ∃ k, t._treeLookup dest = some k := by
  have st := reachable_stable (fun _ hi => hi.1) hpk h
  obtain ⟨s, hs, _⟩ := st.self_ok
  have hsw : s.WF n := st.wf.2.2 s hs
  have hl : ∀ x ∈ t.tinfos.map Prod.snd, x.from_.length = n ∧ x.hops ≠ [] := by
    intro x hx
    obtain ⟨p, hpm, e⟩ := List.mem_map.1 hx
    subst e
    exact ⟨(st.wf.2.1 p hpm).from_length, (reachable_tinfos h p hpm).2⟩
  have hfold := foldlM_treeLookupStep dest (t.tinfos.map Prod.snd) (s, s.dist dest)
    hsw.from_length hl
  unfold dhtree._treeLookup
  rw [hs, Option.some_bind, hfold, Option.some_bind]
  split
  · exact ⟨_, rfl⟩
  · exact ⟨_, rfl⟩

/-- C6 amended, instance: node `[1]` after ingesting the one-hop claims of `[2]`
and `[3]` answers a lookup. -/
theorem treeLookup_returns_witness :
    ∃ k, (nodeAfterTwo [1] [2] [3] [3])._treeLookup (peerClaim [2] [5]) = some k :=
  treeLookup_returns 1 [1] (nodeAfterTwo [1] [2] [3] [3]) (peerClaim [2] [5]) rfl
    (Reachable.update (t := nodeAfterOne [1] [2] [2]) (peerClaim [3] [1]) _
      (Reachable.update (t := dhtree.init [1]) (peerClaim [2] [1]) _ Reachable.init
        (by decide) (List.Perm.refl _) (by decide))
      (by decide) (List.Perm.refl _) (by decide))

/-! ## Key-space lookup -/

/-- C7 fails on the code: `forkedState` is reached by two `update` calls; looking
up key `1`, the source returns peer `55` while the reference greedy fold returns
peer `60`, in both iteration orders of `tinfos`.  The hop loop stores
`t.self.root` as the new best instead of the hop key that was just accepted. -/
theorem dhtLookup_differs_from_spec :
    (dhtree.init (key32 100)).update claimVia60 = some forkedMid ∧
    forkedMid.update claimVia55 = some forkedState ∧
    forkedState._dhtLookup (key32 1) = some (key32 55) ∧
    dhtLookupSpec forkedState (key32 1) = some (key32 60) ∧
    dhtree._dhtLookup { forkedState with tinfos := forkedState.tinfos.reverse } (key32 1)
      = some (key32 55) ∧
    dhtLookupSpec { forkedState with tinfos := forkedState.tinfos.reverse } (key32 1)
      = some (key32 60) := by
  refine ⟨?_, ?_, ?_, ?_, ?_, ?_⟩ <;> decide

theorem foldlM_dhtHopStep_stay (dest : publicKey) (s : treeInfo) (acc : publicKey × publicKey)
    (l : List treeHop) (h : ∀ hop ∈ l, dhtOrdered dest hop.next acc.1 = some false) :
    List.foldlM (dhtHopStep dest s) acc l = some acc := by
  induction l with
  | nil => rfl
  | cons x l ih =>
    rw [List.foldlM_cons]
    simp only [dhtHopStep, h x (List.mem_cons_self _ _), Option.some_bind]
    exact ih (fun y hy => h y (List.mem_cons_of_mem _ hy))

theorem foldlM_dhtPeerStep_stay (dest : publicKey) (acc : publicKey × publicKey)
    (l : List treeInfo) (h : ∀ info ∈ l, dhtOrdered dest info.from_ acc.1 = some false) :
    List.foldlM (dhtPeerStep dest) acc l = some acc := by
  induction l with
  | nil => rfl
  | cons x l ih =>
    rw [List.foldlM_cons]
    simp only [dhtPeerStep, h x (List.mem_cons_self _ _), Option.some_bind]
    exact ih (fun y hy => h y (List.mem_cons_of_mem _ hy))

theorem foldlM_dhtPathStep_stay (dest : publicKey) (acc : publicKey × publicKey)
    (l : List dhtInfo) (h : ∀ info ∈ l, dhtOrdered dest info.source acc.1 = some false) :
    List.foldlM (dhtPathStep dest) acc l = some acc := by
  induction l with
  | nil => rfl
  | cons x l ih =>
    rw [List.foldlM_cons]
    simp only [dhtPathStep, h x (List.mem_cons_self _ _), Option.some_bind]
    exact ih (fun y hy => h y (List.mem_cons_of_mem _ hy))

theorem dhtLookup_stay (t : dhtree) (s : treeInfo) (dest : publicKey) (hs : t.self = some s)
    (h : ∀ c ∈ dhtCandidates t s, dhtOrdered dest c.1 t.corePublicKey = some false) :
    t._dhtLookup dest = some t.corePublicKey := by
  unfold dhtCandidates at h
  have h0 : dhtOrdered dest s.root t.corePublicKey = some false :=
    h (s.root, s.from_) (by simp)
  have h1 : ∀ hop ∈ s.hops, dhtOrdered dest hop.next t.corePublicKey = some false := by
    intro hop hm
    exact h (hop.next, s.from_) (by
      simp only [List.cons_append, List.mem_cons, List.mem_append, List.mem_map]
      exact Or.inr (Or.inl (Or.inl ⟨hop, hm, rfl⟩)))
  have h2 : ∀ info ∈ t.tinfos.map Prod.snd,
      dhtOrdered dest info.from_ t.corePublicKey = some false := by
    intro info hm
    obtain ⟨p, hp, e⟩ := List.mem_map.1 hm
    subst e
    exact h (p.2.from_, p.2.from_) (by
      simp only [List.cons_append, List.mem_cons, List.mem_append, List.mem_map]
      exact Or.inr (Or.inl (Or.inr ⟨p, hp, rfl⟩)))
  have h3 : ∀ info ∈ t.dinfos.map Prod.snd,
      dhtOrdered dest info.source t.corePublicKey = some false := by
    intro info hm
    obtain ⟨p, hp, e⟩ := List.mem_map.1 hm
    subst e
    exact h (p.2.source, p.2.prev) (by
      simp only [List.cons_append, List.mem_cons, List.mem_append, List.mem_map]
      exact Or.inr (Or.inr ⟨p, hp, rfl⟩))
  unfold dhtree._dhtLookup
  rw [hs, Option.some_bind, h0, Option.some_bind]
  simp only [Bool.false_eq_true, if_false]
  rw [foldlM_dhtHopStep_stay _ _ _ _ h1, Option.some_bind,
    foldlM_dhtPeerStep_stay _ _ _ h2, Option.some_bind,
    foldlM_dhtPathStep_stay _ _ _ h3, Option.some_bind]

theorem dhtOrdered_self (pk k : publicKey) (h : k.length = pk.length) :
    dhtOrdered pk k pk = some false := by
  rw [dhtOrdered_eq pk k pk h.symm h, lexLt_irrefl]
  cases h1 : lexLt pk k with
  | false => simp
  | true => simp [lexLt_asymm _ _ h1]

/-- C8: with `self` present, if `dhtOrdered dest k localKey` is false for every
candidate key `k` (`self.root`, each `hop.next` of `self.hops`, each stored
claim's `from()`, each `dhtInfo.source`), then `_dhtLookup dest` returns the
local key; in particular, when all keys have one length, `_dhtLookup localKey`
returns the local key. -/
theorem dhtLookup_default (n : Nat) (t : dhtree) (s : treeInfo) (dest : publicKey)
    (hs : t.self = some s) :
    ((∀ c ∈ dhtCandidates t s, dhtOrdered dest c.1 t.corePublicKey = some false) →
      t._dhtLookup dest = some t.corePublicKey) ∧
    (t.WF n → (∀ p ∈ t.dinfos, p.2.source.length = n) →
      t._dhtLookup t.corePublicKey = some t.corePublicKey) := by
  refine ⟨dhtLookup_stay t s dest hs, ?_⟩
  intro hwf hdi
  apply dhtLookup_stay t s _ hs
  have hsw : s.WF n := hwf.2.2 s hs
  intro c hc
  apply dhtOrdered_self
  rw [hwf.1]
  simp only [dhtCandidates, List.cons_append, List.mem_cons, List.mem_append, List.mem_map] at hc
  rcases hc with e | (⟨hop, hm, e⟩ | ⟨p, hp, e⟩) | ⟨p, hp, e⟩
  · rw [e]; exact hsw.1
  · rw [← e]; exact hsw.2 hop hm
  · rw [← e]; exact (hwf.2.1 p hp).from_length
  · rw [← e]; exact hdi p hp

/-- C8 instance: node `100` of `forkedState` looking up key `70`, which lies
cyclically between no candidate and the local key, and looking up its own key. -/
theorem dhtLookup_default_witness :
    forkedState._dhtLookup (key32 100) = some (key32 100) ∧
    forkedState._dhtLookup (key32 70) = some (key32 100) :=
  ⟨(dhtLookup_default 32 forkedState claimVia60 (key32 100) rfl).2
      ⟨rfl, by decide, fun s hs => Option.some.inj hs ▸ (by decide)⟩ (by decide),
   (dhtLookup_default 32 forkedState claimVia60 (key32 70) rfl).1 (by decide)⟩

/-! ## The key order is the lexicographic order -/

theorem lexLt_iff_lex (a b : List Nat) (h : a.length = b.length) :
    lexLt a b = true ↔ List.Lex (fun x y => x < y) a b := by
  induction a generalizing b with
  | nil =>
    cases b with
    | nil => simp [lexLt]
    | cons y ys => simp at h
  | cons x xs ih =>
    cases b with
    | nil => simp at h
    | cons y ys =>
      simp only [List.length_cons, Nat.add_right_cancel_iff] at h
      simp only [lexLt, Bool.or_eq_true, Bool.and_eq_true, decide_eq_true_eq]
      constructor
      · rintro (hlt | ⟨heq, hrest⟩)
        · exact List.Lex.rel hlt
        · subst heq
          exact List.Lex.cons ((ih ys h).1 hrest)
      · intro hl
        cases hl with
        | rel hlt => exact Or.inl hlt
        | cons hrest => exact Or.inr ⟨rfl, (ih ys h).2 hrest⟩

/-- C11: on keys of one fixed length `treeLess` returns, it is the unsigned
lexicographic comparison of the byte lists, it is irreflexive and transitive, and
for two keys exactly one of `treeLess a b`, `a = b`, `treeLess b a` holds. -/
theorem treeLess_strict_total_order (n : Nat) (a b c : publicKey)
    (ha : a.length = n) (hb : b.length = n) (hc : c.length = n) :
    (∃ r, treeLess a b = some r) ∧
    (treeLess a b = some true ↔ List.Lex (fun x y => x < y) a b) ∧
    treeLess a a = some false ∧
    (treeLess a b = some true → treeLess b c = some true → treeLess a c = some true) ∧
    ExactlyOne (treeLess a b = some true) (a = b) (treeLess b a = some true) := by
  have hab : a.length = b.length := by rw [ha, hb]
  have hbc : b.length = c.length := by rw [hb, hc]
  rw [treeLess_eq_lexLt a b hab, treeLess_eq_lexLt a a rfl, treeLess_eq_lexLt b c hbc,
    treeLess_eq_lexLt a c (hab.trans hbc), treeLess_eq_lexLt b a hab.symm]
  refine ⟨⟨_, rfl⟩, ?_, ?_, ?_, ?_⟩
  · rw [Option.some.injEq]
    exact lexLt_iff_lex a b hab
  · rw [lexLt_irrefl]
  · intro h1 h2
    rw [Option.some.injEq] at h1 h2 ⊢
    exact lexLt_trans a b c h1 h2
  · simp only [ExactlyOne, Option.some.injEq]
    by_cases e : a = b
    · subst e
      simp [lexLt_irrefl]
    · have hf := lexLt_flip a b hab e
      cases h1 : lexLt a b <;> simp [h1, hf, e]

/-- C11 instance at the keys `[1, 2]`, `[1, 3]`, `[2, 0]`. -/
theorem treeLess_strict_total_order_witness :
    (∃ r, treeLess [1, 2] [1, 3] = some r) ∧
    (treeLess [1, 2] [1, 3] = some true ↔ List.Lex (fun x y => x < y) [1, 2] [1, 3]) ∧
    treeLess [1, 2] [1, 2] = some false ∧
    (treeLess [1, 2] [1, 3] = some true → treeLess [1, 3] [2, 0] = some true →
      treeLess [1, 2] [2, 0] = some true) ∧
    ExactlyOne (treeLess [1, 2] [1, 3] = some true) (([1, 2] : publicKey) = [1, 3])
      (treeLess [1, 3] [1, 2] = some true) :=
  treeLess_strict_total_order 2 [1, 2] [1, 3] [2, 0] rfl rfl rfl

/-! ## The tree distance -/

theorem commonPrefixLen_comm (a b : List publicKey) :
    commonPrefixLen a b = commonPrefixLen b a := by
  induction a generalizing b with
  | nil => cases b <;> simp [commonPrefixLen]
  | cons x xs ih =>
    cases b with
    | nil => simp [commonPrefixLen]
    | cons y ys =>
      simp only [commonPrefixLen]
      by_cases h : x = y
      · rw [if_pos h, if_pos h.symm, ih ys]
      · rw [if_neg h, if_neg (fun e => h e.symm)]

/-- The loop of `dist` leaves `lcaIdx` alone when the first hops differ and
otherwise ends on the index of the last hop of the common prefix. -/
theorem lastCommonIdx_eq (a b : List treeHop) (idx lca : Int) :
    lastCommonIdx a b idx lca =
      if commonPrefixLen (nextKeys a) (nextKeys b) = 0 then lca
      else idx + (commonPrefixLen (nextKeys a) (nextKeys b) : Int) - 1 := by
  induction a generalizing b idx lca with
  | nil => simp [lastCommonIdx, nextKeys, commonPrefixLen]
  | cons x xs ih =>
    cases b with
    | nil => simp [lastCommonIdx, nextKeys, commonPrefixLen]
    | cons y ys =>
      simp only [lastCommonIdx, nextKeys, List.map_cons, commonPrefixLen]
      by_cases h : x.next = y.next
      · simp only [h, ne_eq, not_true_eq_false, if_false, if_true, Nat.add_one_ne_zero]
        have := ih ys (idx + 1) idx
        simp only [nextKeys] at this
        rw [this]
        split
        · rename_i h0
          rw [h0]
          simp
        · push_cast
          omega
      · simp [h]

/-- For two records with one root the code computes the stated distance plus
two. -/
theorem dist_eq_distSpec_add_two (a b : treeInfo) (h : a.root = b.root) :
    a.dist b = distSpec a b + 2 := by
  simp only [treeInfo.dist, h, ne_eq, not_true_eq_false, if_false, distSpec]
  split
  · rw [lastCommonIdx_eq, commonPrefixLen_comm (nextKeys b.hops) (nextKeys a.hops)]
    split
    · rename_i h0; rw [h0]; push_cast; omega
    · omega
  · rw [lastCommonIdx_eq]
    split
    · rename_i h0; rw [h0]; push_cast; omega
    · omega

/-- C12 fails on the code: the siblings `pathA` and `pathB` share the root and a
common prefix of length one, so the stated distance is `2 + 2 - 2*1 = 2`, while
`dist` returns `4`. -/
theorem dist_differs_from_formula :
    pathA.root = pathB.root ∧
    commonPrefixLen (nextKeys pathA.hops) (nextKeys pathB.hops) = 1 ∧
    distSpec pathA pathB = 2 ∧ pathA.dist pathB = 4 := by
  decide

/-- C13 fails on the code: `dist` of a record to itself is `2`, not `0`, both for
the two-hop record `pathA` and for the record without hops. -/
theorem dist_self_is_two :
    pathA.dist pathA = 2 ∧
    treeInfo.dist { root := [9], hops := [] } { root := [9], hops := [] } = 2 := by
  decide

theorem lastCommonIdx_comm (a b : List treeHop) (idx lca : Int) :
    lastCommonIdx a b idx lca = lastCommonIdx b a idx lca := by
  rw [lastCommonIdx_eq, lastCommonIdx_eq, commonPrefixLen_comm]

/-- C14: `dist` is symmetric for all records, whatever their roots and hop
lists. -/
theorem dist_symm (a b : treeInfo) : a.dist b = b.dist a := by
  unfold treeInfo.dist
  by_cases h : a.root = b.root
  · simp only [h, ne_eq, not_true_eq_false, if_false]
    rcases Nat.lt_trichotomy a.hops.length b.hops.length with hl | hl | hl
    · simp [hl, Nat.lt_asymm hl]
    · simp only [hl, Nat.lt_irrefl, if_false]
      rw [lastCommonIdx_comm]
    · simp [hl, Nat.lt_asymm hl]
  · have h2 : ¬ b.root = a.root := fun e => h e.symm
    simp [h, h2]

theorem commonPrefixLen_le (a b : List publicKey) :
    commonPrefixLen a b ≤ a.length ∧ commonPrefixLen a b ≤ b.length := by
  induction a generalizing b with
  | nil => simp [commonPrefixLen]
  | cons x xs ih =>
    cases b with
    | nil => simp [commonPrefixLen]
    | cons y ys =>
      simp only [commonPrefixLen, List.length_cons]
      split
      · have := ih ys
        omega
      · omega

/-- The code never returns a distance below two, so in particular never zero. -/
theorem dist_ge_two (a b : treeInfo) : 2 ≤ a.dist b := by
  by_cases h : a.root = b.root
  · rw [dist_eq_distSpec_add_two a b h]
    have := commonPrefixLen_le (nextKeys a.hops) (nextKeys b.hops)
    simp only [nextKeys, List.length_map] at this
    simp only [distSpec, nextKeys]
    omega
  · rw [dist_of_ne_root a b h]
    unfold maxInt
    omega

/-! ## Loop detection -/

theorem checkLoopsFrom_iff (hops : List treeHop) (key : publicKey) (keys : List publicKey) :
    checkLoopsFrom key keys hops = true ↔
      (key :: nextKeys hops).Nodup ∧ ∀ k ∈ key :: nextKeys hops, k ∉ keys := by
  induction hops generalizing key keys with
  | nil => simp [checkLoopsFrom, nextKeys]
  | cons hop rest ih =>
    simp only [checkLoopsFrom, nextKeys, List.map_cons]
    by_cases hk : key ∈ keys
    · simp only [hk, if_true, Bool.false_eq_true, false_iff, not_and]
      intro _ hall
      exact hall key (List.mem_cons_self _ _) hk
    · rw [if_neg hk, ih hop.next (key :: keys)]
      simp only [nextKeys, List.nodup_cons, List.mem_cons, not_or]
      constructor
      · rintro ⟨⟨h1, h2⟩, h3⟩
        refine ⟨⟨⟨?_, ?_⟩, h1, h2⟩, ?_⟩
        · intro e
          exact (h3 hop.next (Or.inl rfl)).1 e.symm
        · intro hm
          exact (h3 key (Or.inr hm)).1 rfl
        · rintro k (e | e | hm)
          · rw [e]; exact hk
          · exact (h3 k (Or.inl e)).2
          · exact (h3 k (Or.inr hm)).2
      · rintro ⟨⟨⟨h0, h0b⟩, h1, h2⟩, h3⟩
        refine ⟨⟨h1, h2⟩, ?_⟩
        rintro k (e | hm)
        · exact ⟨fun e2 => h0 (e2.symm.trans e), h3 k (Or.inr (Or.inl e))⟩
        · exact ⟨fun e2 => h0b (e2 ▸ hm), h3 k (Or.inr (Or.inr hm))⟩

/-- C15: `checkLoops` returns true exactly when the keys `root`, `hops[0].next`,
..., `hops[n-1].next` are pairwise distinct; so it returns false whenever the
root equals some hop's `next` or two hops (at different positions) have the same
`next`. -/
theorem checkLoops_iff_nodup (info : treeInfo) :
    (info.checkLoops = true ↔ (info.root :: nextKeys info.hops).Nodup) ∧
    (info.root ∈ nextKeys info.hops → info.checkLoops = false) ∧
    (¬ (nextKeys info.hops).Nodup → info.checkLoops = false) := by
  have key : info.checkLoops = true ↔ (info.root :: nextKeys info.hops).Nodup := by
    unfold treeInfo.checkLoops
    rw [checkLoopsFrom_iff]
    simp
  refine ⟨key, ?_, ?_⟩
  · intro hm
    cases hc : info.checkLoops with
    | false => rfl
    | true => exact absurd hm (List.nodup_cons.1 (key.1 hc)).1
  · intro hn
    cases hc : info.checkLoops with
    | false => rfl
    | true => exact absurd (List.nodup_cons.1 (key.1 hc)).2 hn

/-- C15 instance: a record that returns to its root fails `checkLoops`, and one
that repeats a hop key fails too. -/
theorem checkLoops_iff_nodup_witness :
    (mkInfo [9] [[5], [9]]).checkLoops = false ∧ (mkInfo [9] [[5], [6], [5]]).checkLoops = false ∧
    (mkInfo [9] [[5], [6]]).checkLoops = true :=
  ⟨(checkLoops_iff_nodup (mkInfo [9] [[5], [9]])).2.1 (by decide),
   (checkLoops_iff_nodup (mkInfo [9] [[5], [6], [5]])).2.2 (by decide),
   (checkLoops_iff_nodup (mkInfo [9] [[5], [6]])).1.2 (by decide)⟩

/-! ## Signature chains -/

theorem appendNexts_eq (bs : List Nat) (hops : List treeHop) :
    appendNexts bs hops = bs ++ (nextKeys hops).flatten := by
  induction hops generalizing bs with
  | nil => simp [appendNexts, nextKeys]
  | cons hop rest ih =>
    have := ih (bs ++ hop.next)
    simp only [appendNexts, List.foldl_cons, nextKeys, List.map_cons, List.flatten_cons] at this ⊢
    rw [this, List.append_assoc]

theorem appendNexts_append (bs : List Nat) (pre rest : List treeHop) :
    appendNexts bs (pre ++ rest) = appendNexts (appendNexts bs pre) rest := by
  simp [appendNexts, List.foldl_append]

theorem lastKeyFrom_append (key : publicKey) (pre : List treeHop) (hop : treeHop) :
    lastKeyFrom key (pre ++ [hop]) = hop.next := by
  induction pre generalizing key with
  | nil => rfl
  | cons x xs ih => simpa [lastKeyFrom] using ih x.next

/-- The loop of `checkSigs` on a concatenation: the first part is checked, then
the second part from the key and bytes the first part ends on. -/
theorem checkSigsFrom_append (verify : publicKey → List Nat → signature → Bool)
    (key : publicKey) (bs : List Nat) (pre rest : List treeHop) :
    checkSigsFrom verify key bs (pre ++ rest) =
      (checkSigsFrom verify key bs pre &&
        checkSigsFrom verify (lastKeyFrom key pre) (appendNexts bs pre) rest) := by
  induction pre generalizing key bs with
  | nil => simp [checkSigsFrom, lastKeyFrom, appendNexts]
  | cons x xs ih =>
    simp only [List.cons_append, checkSigsFrom, lastKeyFrom, appendNexts, List.foldl_cons]
    cases hv : verify key (bs ++ x.next) x.sig with
    | false => simp
    | true =>
      simp only [Bool.not_true, Bool.false_eq_true, if_false]
      exact ih x.next (bs ++ x.next)

theorem add_root (sign : privateKey → List Nat → signature) (info : treeInfo)
    (priv : privateKey) (next : publicKey) : (info.add sign priv next).root = info.root := rfl

theorem add_hops (sign : privateKey → List Nat → signature) (info : treeInfo)
    (priv : privateKey) (next : publicKey) :
    (info.add sign priv next).hops = info.hops ++
      [{ next := next,
         sig := sign priv (info.root ++ (nextKeys info.hops).flatten ++ next) }] := by
  simp [treeInfo.add, appendNexts_eq]

/-- One `add` by the holder of the last key keeps the loop of `checkSigs`
passing. -/
theorem add_checks (sign : privateKey → List Nat → signature)
    (verify : publicKey → List Nat → signature → Bool) (pub : privateKey → publicKey)
    (hv : ∀ k m, verify (pub k) m (sign k m) = true) (info : treeInfo) (k : privateKey)
    (next : publicKey)
    (hc : checkSigsFrom verify info.root info.root info.hops = true)
    (hk : lastKeyFrom info.root info.hops = pub k) :
    checkSigsFrom verify (info.add sign k next).root (info.add sign k next).root
        (info.add sign k next).hops = true ∧
    lastKeyFrom (info.add sign k next).root (info.add sign k next).hops = next := by
  constructor
  · simp only [treeInfo.add, List.nil_append]
    rw [checkSigsFrom_append, hc, hk]
    simp [checkSigsFrom, hv]
  · simp only [treeInfo.add]
    exact lastKeyFrom_append _ _ _

theorem addChain_checks (sign : privateKey → List Nat → signature)
    (verify : publicKey → List Nat → signature → Bool) (pub : privateKey → publicKey)
    (hv : ∀ k m, verify (pub k) m (sign k m) = true) (ks : List privateKey) (k : privateKey)
    (last : publicKey) (info : treeInfo)
    (hc : checkSigsFrom verify info.root info.root info.hops = true)
    (hk : lastKeyFrom info.root info.hops = pub k) :
    checkSigsFrom verify (addChain sign pub info (k :: ks) last).root
        (addChain sign pub info (k :: ks) last).root
        (addChain sign pub info (k :: ks) last).hops = true ∧
    (addChain sign pub info (k :: ks) last).root = info.root ∧
    nextKeys (addChain sign pub info (k :: ks) last).hops
      = nextKeys info.hops ++ ks.map pub ++ [last] := by
  induction ks generalizing k info with
  | nil =>
    simp only [addChain]
    refine ⟨(add_checks sign verify pub hv info k last hc hk).1, rfl, ?_⟩
    simp [treeInfo.add, nextKeys]
  | cons k2 rest ih =>
    simp only [addChain]
    have h := add_checks sign verify pub hv info k (pub k2) hc hk
    obtain ⟨h1, h2, h3⟩ := ih k2 (info.add sign k (pub k2)) h.1 h.2
    refine ⟨h1, h2, ?_⟩
    rw [h3]
    simp [treeInfo.add, nextKeys]

/-- C16: if `verify (pub k) m (sign k m)` holds for every key and message, then
for every chain of private keys `k0 :: ks` and final key `last` the record built
from the degenerate record `{root: pub k0}` by the successive `add` calls passes
`checkSigs`, keeps the root, and visits the keys `pub k1, ..., last`; and every
`add` returns the same root with the old hops followed by the one hop
`{next, sign(priv, root || earlier next keys || next)}`. -/
theorem chain_passes_checkSigs (sign : privateKey → List Nat → signature)
    (verify : publicKey → List Nat → signature → Bool) (pub : privateKey → publicKey)
    (hv : ∀ k m, verify (pub k) m (sign k m) = true) (k0 : privateKey)
    (ks : List privateKey) (last : publicKey) :
    (chainRecord sign pub k0 ks last).checkSigs verify = true ∧
    (chainRecord sign pub k0 ks last).root = pub k0 ∧
    nextKeys (chainRecord sign pub k0 ks last).hops = ks.map pub ++ [last] ∧
    ∀ (info : treeInfo) (priv : privateKey) (next : publicKey),
      (info.add sign priv next).root = info.root ∧
      (info.add sign priv next).hops = info.hops ++
        [{ next := next,
           sig := sign priv (info.root ++ (nextKeys info.hops).flatten ++ next) }] := by
  obtain ⟨h1, h2, h3⟩ := addChain_checks sign verify pub hv ks k0 last
    { root := pub k0, hops := [] } rfl rfl
  refine ⟨?_, h2, ?_, fun info priv next => ⟨add_root sign info priv next,
    add_hops sign info priv next⟩⟩
  · unfold treeInfo.checkSigs chainRecord
    have hlen : (nextKeys (addChain sign pub { root := pub k0, hops := [] }
        (k0 :: ks) last).hops).length ≠ 0 := by
      rw [h3]; simp
    simp only [nextKeys, List.length_map] at hlen
    rw [if_neg hlen]
    simpa using h1
  · simpa [chainRecord, nextKeys] using h3

/-- C16 instance in the toy scheme: the chain of keys `[1]`, `[2]` ending on
`[3]`. -/
theorem chain_passes_checkSigs_witness :
    (chainRecord toySign toyPub [1] [[2]] [3]).checkSigs toyVerify = true ∧
    (chainRecord toySign toyPub [1] [[2]] [3]).root = [1] ∧
    nextKeys (chainRecord toySign toyPub [1] [[2]] [3]).hops = [[2], [3]] :=
  have h := chain_passes_checkSigs toySign toyVerify toyPub
    (by intro k m; simp [toyVerify, toySign, toyPub]) [1] [[2]] [3]
  ⟨h.1, h.2.1, h.2.2.1⟩

theorem add_signedBy (sign : privateKey → List Nat → signature) (pub : privateKey → publicKey)
    (info : treeInfo) (k : privateKey) (next : publicKey) (hs : SignedBy sign pub info)
    (hk : lastKeyFrom info.root info.hops = pub k) :
    SignedBy sign pub (info.add sign k next) := by
  intro pre hop post hsplit
  simp only [treeInfo.add, List.nil_append] at hsplit ⊢
  rcases List.eq_nil_or_concat post with e | ⟨post2, x, e⟩
  · subst e
    have h2 := List.append_inj' hsplit rfl
    obtain ⟨e1, e2⟩ := h2
    simp only [List.cons.injEq, and_true] at e2
    subst e1
    refine ⟨k, hk, ?_⟩
    rw [← e2]
  · subst e
    have h3 : info.hops ++ [{ next := next, sig := sign k (appendNexts info.root info.hops ++ next) }]
        = (pre ++ hop :: post2) ++ [x] := by
      rw [hsplit]; simp
    have h2 := List.append_inj' h3 rfl
    exact hs pre hop post2 h2.1

theorem addChain_signedBy (sign : privateKey → List Nat → signature)
    (pub : privateKey → publicKey) (ks : List privateKey) (k : privateKey) (last : publicKey)
    (info : treeInfo) (hs : SignedBy sign pub info)
    (hk : lastKeyFrom info.root info.hops = pub k) :
    SignedBy sign pub (addChain sign pub info (k :: ks) last) := by
  induction ks generalizing k info with
  | nil => exact add_signedBy sign pub info k last hs hk
  | cons k2 rest ih =>
    simp only [addChain]
    apply ih k2
    · exact add_signedBy sign pub info k (pub k2) hs hk
    · simp only [treeInfo.add]
      exact lastKeyFrom_append _ _ _

theorem chainRecord_signedBy (sign : privateKey → List Nat → signature)
    (pub : privateKey → publicKey) (k0 : privateKey) (ks : List privateKey)
    (last : publicKey) : SignedBy sign pub (chainRecord sign pub k0 ks last) := by
  apply addChain_signedBy
  · intro pre hop post hsplit
    simp at hsplit
  · rfl

/-- C17: under an ideal signature scheme (`verify (pub k) m s` only for
`s = sign k m`, and `sign k` injective in the message), take the record built by
a chain of `add` calls and replace one hop `hop` by `hop2` that differs from it
in the `next` bytes only or in the `sig` bytes only (a single changed byte is
such a difference): `checkSigs` returns false on the result. -/
theorem tampered_chain_fails_checkSigs (sign : privateKey → List Nat → signature)
    (verify : publicKey → List Nat → signature → Bool) (pub : privateKey → publicKey)
    (hv : ∀ k m s, verify (pub k) m s = true → s = sign k m)
    (hinj : ∀ k m1 m2, sign k m1 = sign k m2 → m1 = m2)
    (k0 : privateKey) (ks : List privateKey) (last : publicKey)
    (pre post : List treeHop) (hop hop2 : treeHop)
    (hsplit : (chainRecord sign pub k0 ks last).hops = pre ++ hop :: post)
    (hchange : (hop2.next ≠ hop.next ∧ hop2.sig = hop.sig) ∨
      (hop2.next = hop.next ∧ hop2.sig ≠ hop.sig)) :
    treeInfo.checkSigs verify
      { root := (chainRecord sign pub k0 ks last).root, hops := pre ++ hop2 :: post } = false := by
  obtain ⟨k, hk, hsig⟩ := chainRecord_signedBy sign pub k0 ks last pre hop post hsplit
  unfold treeInfo.checkSigs
  have hlen : (pre ++ hop2 :: post).length ≠ 0 := by simp
  simp only [hlen, if_false, List.nil_append]
  rw [checkSigsFrom_append]
  have hbad : verify (lastKeyFrom (chainRecord sign pub k0 ks last).root pre)
      (appendNexts (chainRecord sign pub k0 ks last).root pre ++ hop2.next) hop2.sig = false := by
    cases hver : verify (lastKeyFrom (chainRecord sign pub k0 ks last).root pre)
        (appendNexts (chainRecord sign pub k0 ks last).root pre ++ hop2.next) hop2.sig with
    | false => rfl
    | true =>
      rw [hk] at hver
      have e := hv k _ _ hver
      rcases hchange with ⟨hn, hs⟩ | ⟨hn, hs⟩
      · rw [hs, hsig] at e
        have := List.append_cancel_left (hinj k _ _ e)
        exact absurd this.symm hn
      · rw [hn, ← hsig] at e
        exact absurd e hs
  simp [checkSigsFrom, hbad]

/-- C17 instance in the toy scheme: in the chain of keys `[1]`, `[2]` ending on
`[3]`, the byte of the first hop's `next` is changed from `2` to `7`, and in a
second experiment the first byte of the last hop's `sig` from `2` to `0`. -/
theorem tampered_chain_fails_checkSigs_witness :
    treeInfo.checkSigs toyVerify
      { root := [1],
        hops := [{ next := [7], sig := [1, 1, 2] }, { next := [3], sig := [2, 1, 2, 3] }] }
      = false ∧
    treeInfo.checkSigs toyVerify
      { root := [1],
        hops := [{ next := [2], sig := [1, 1, 2] }, { next := [3], sig := [0, 1, 2, 3] }] }
      = false :=
  ⟨tampered_chain_fails_checkSigs toySign toyVerify toyPub
      (by intro k m s h; simpa [toyVerify, toySign, toyPub] using h)
      (by intro k m1 m2 h; exact List.append_cancel_left h)
      [1] [[2]] [3] [] [{ next := [3], sig := [2, 1, 2, 3] }]
      { next := [2], sig := [1, 1, 2] } { next := [7], sig := [1, 1, 2] } (by decide)
      (Or.inl ⟨by decide, rfl⟩),
   tampered_chain_fails_checkSigs toySign toyVerify toyPub
      (by intro k m s h; simpa [toyVerify, toySign, toyPub] using h)
      (by intro k m1 m2 h; exact List.append_cancel_left h)
      [1] [[2]] [3] [{ next := [2], sig := [1, 1, 2] }] []
      { next := [3], sig := [2, 1, 2, 3] } { next := [3], sig := [0, 1, 2, 3] } (by decide)
      (Or.inr ⟨rfl, by decide⟩)⟩

/-! ## Wire round trip -/

theorem foldl_hopBytes (acc : List Nat) (hops : List treeHop) :
    hops.foldl (fun data hop => data ++ hop.next ++ hop.sig) acc = acc ++ hopBytes hops := by
  induction hops generalizing acc with
  | nil => simp [hopBytes]
  | cons hop rest ih =>
    rw [List.foldl_cons, ih]
    simp [hopBytes, List.append_assoc]

theorem marshal_eq (info : treeInfo) : info.MarshalBinary = info.root ++ hopBytes info.hops := by
  unfold treeInfo.MarshalBinary
  rw [foldl_hopBytes]
  rfl

theorem hopBytes_cons (hop : treeHop) (rest : List treeHop) :
    hopBytes (hop :: rest) = hop.next ++ (hop.sig ++ hopBytes rest) := by
  simp [hopBytes, List.append_assoc]

theorem hopBytes_append (a b : List treeHop) : hopBytes (a ++ b) = hopBytes a ++ hopBytes b := by
  simp [hopBytes]

theorem hopBytes_length (hops : List treeHop)
    (h : ∀ hop ∈ hops, hop.next.length = 32 ∧ hop.sig.length = 64) :
    (hopBytes hops).length = 96 * hops.length := by
  induction hops with
  | nil => rfl
  | cons hop rest ih =>
    have h1 := h hop (List.mem_cons_self _ _)
    have h2 := ih (fun x hx => h x (List.mem_cons_of_mem _ hx))
    rw [hopBytes_cons]
    simp only [List.length_append, List.length_cons, h1.1, h1.2, h2]
    omega

theorem wireChopBytes_append (a rest : List Nat) (n : Nat) (h : a.length = n) :
    wireChopBytes (a ++ rest) n = some (a, rest) := by
  unfold wireChopBytes
  have : ¬ (a ++ rest).length < n := by simp [h]
  rw [if_neg this, List.take_left' h, List.drop_left' h]

/-- Decoding the bytes of well-sized hops gives the hops back, with any fuel that
covers the data. -/
theorem unmarshalHops_hopBytes (hops acc : List treeHop) (fuel : Nat)
    (h : ∀ hop ∈ hops, hop.next.length = 32 ∧ hop.sig.length = 64)
    (hf : (hopBytes hops).length ≤ fuel) :
    unmarshalHops fuel acc (hopBytes hops) = some (acc ++ hops) := by
  induction hops generalizing acc fuel with
  | nil =>
    unfold unmarshalHops
    simp [hopBytes]
  | cons hop rest ih =>
    have h1 := h hop (List.mem_cons_self _ _)
    have hrest : ∀ x ∈ rest, x.next.length = 32 ∧ x.sig.length = 64 :=
      fun x hx => h x (List.mem_cons_of_mem _ hx)
    have hlen := hopBytes_length (hop :: rest) h
    have hlen2 := hopBytes_length rest hrest
    simp only [List.length_cons] at hlen
    unfold unmarshalHops
    have hpos : (hopBytes (hop :: rest)).length > 0 := by omega
    rw [if_pos hpos]
    cases fuel with
    | zero => omega
    | succ fuel =>
      simp only
      rw [hopBytes_cons, wireChopBytes_append _ _ _ (by rw [h1.1]; rfl)]
      simp only
      rw [wireChopBytes_append _ _ _ (by rw [h1.2]; rfl)]
      simp only
      rw [ih (acc ++ [hop]) fuel hrest (by omega)]
      simp

/-- C18: for every well-formed record (32-byte root, hops of a 32-byte `next` and
a 64-byte `sig`) `MarshalBinary` yields `32 + 96 * len(hops)` bytes, and
`UnmarshalBinary` of those bytes returns no error and leaves the receiver equal
to the record, whatever the receiver held before. -/
theorem marshal_unmarshal_roundtrip (info recv : treeInfo) (h : info.Sized) :
    info.MarshalBinary.length = 32 + 96 * info.hops.length ∧
    recv.UnmarshalBinary info.MarshalBinary = (info, false) := by
  have hlen := hopBytes_length info.hops h.2
  rw [marshal_eq]
  constructor
  · rw [List.length_append, h.1, hlen]
  · unfold treeInfo.UnmarshalBinary
    rw [wireChopBytes_append _ _ _ (by rw [h.1]; rfl)]
    simp only
    rw [unmarshalHops_hopBytes info.hops [] _ h.2 (le_refl _)]
    simp

/-- C18 instance: the one-hop record `wireSample` takes 128 bytes and decodes
back into itself. -/
theorem marshal_unmarshal_roundtrip_witness :
    wireSample.MarshalBinary.length = 32 + 96 * 1 ∧
    treeInfo.UnmarshalBinary { root := [], hops := [] } wireSample.MarshalBinary
      = (wireSample, false) :=
  marshal_unmarshal_roundtrip wireSample { root := [], hops := [] } (by decide)

theorem wireChopBytes_none (data : List Nat) (n : Nat) :
    wireChopBytes data n = none ↔ data.length < n := by
  unfold wireChopBytes
  split <;> simp_all

theorem wireChopBytes_some (data a rest : List Nat) (n : Nat)
    (h : wireChopBytes data n = some (a, rest)) :
    n ≤ data.length ∧ a.length = n ∧ data = a ++ rest ∧ rest.length = data.length - n := by
  unfold wireChopBytes at h
  split at h
  · exact absurd h (by simp)
  · rename_i hn
    simp only [Option.some.injEq, Prod.mk.injEq] at h
    obtain ⟨h1, h2⟩ := h
    subst h1 h2
    refine ⟨by omega, ?_, (List.take_append_drop n data).symm, List.length_drop n data⟩
    rw [List.length_take]
    omega

/-- The loop of `UnmarshalBinary` fails exactly on a length that is not a
multiple of 96, and otherwise decodes hops whose bytes are the whole data. -/
theorem unmarshalHops_spec (fuel : Nat) (acc : List treeHop) (data : List Nat)
    (hf : data.length ≤ fuel) :
    (unmarshalHops fuel acc data = none ↔ data.length % 96 ≠ 0) ∧
    (∀ hops, unmarshalHops fuel acc data = some hops →
      ∃ new, hops = acc ++ new ∧ hopBytes new = data) := by
  induction fuel generalizing acc data with
  | zero =>
    have h0 : data.length = 0 := by omega
    unfold unmarshalHops
    simp only [h0, gt_iff_lt, Nat.lt_irrefl, if_false]
    refine ⟨by simp, ?_⟩
    intro hops hh
    simp only [Option.some.injEq] at hh
    refine ⟨[], by simp [hh], ?_⟩
    simp [hopBytes, List.length_eq_zero.1 h0]
  | succ fuel ih =>
    unfold unmarshalHops
    by_cases hpos : data.length > 0
    · rw [if_pos hpos]
      simp only
      cases h1 : wireChopBytes data publicKeySize with
      | none =>
        have := (wireChopBytes_none _ _).1 h1
        unfold publicKeySize at this
        simp only
        refine ⟨by simp; omega, ?_⟩
        intro hops hh
        exact absurd hh (by simp)
      | some p1 =>
        obtain ⟨next, data1⟩ := p1
        have s1 := wireChopBytes_some _ _ _ _ h1
        unfold publicKeySize at s1
        simp only
        cases h2 : wireChopBytes data1 signatureSize with
        | none =>
          have := (wireChopBytes_none _ _).1 h2
          unfold signatureSize at this
          simp only
          refine ⟨by simp; omega, ?_⟩
          intro hops hh
          exact absurd hh (by simp)
        | some p2 =>
          obtain ⟨sig, data2⟩ := p2
          have s2 := wireChopBytes_some _ _ _ _ h2
          unfold signatureSize at s2
          simp only
          obtain ⟨i1, i2⟩ := ih (acc ++ [{ next := next, sig := sig }]) data2 (by omega)
          constructor
          · rw [i1]
            have : data2.length = data.length - 96 := by omega
            rw [this]
            omega
          · intro hops hh
            obtain ⟨new, e1, e2⟩ := i2 hops hh
            refine ⟨{ next := next, sig := sig } :: new, by simp [e1], ?_⟩
            rw [hopBytes_cons, e2, s1.2.2.1, s2.2.2.1]
    · rw [if_neg hpos]
      have h0 : data.length = 0 := by omega
      refine ⟨by simp [h0], ?_⟩
      intro hops hh
      simp only [Option.some.injEq] at hh
      refine ⟨[], by simp [hh], ?_⟩
      simp [hopBytes, List.length_eq_zero.1 h0]

/-- C19: for every byte sequence `UnmarshalBinary` returns an error exactly when
the sequence is shorter than 32 bytes or its length after the 32-byte root is
not a multiple of 96; on error the receiver is unchanged, and on success the
decoded record accounts for every byte: marshalling it gives the sequence back. -/
theorem unmarshal_error_iff (recv : treeInfo) (data : List Nat) :
    ((recv.UnmarshalBinary data).2 = true ↔
      data.length < 32 ∨ (data.length - 32) % 96 ≠ 0) ∧
    ((recv.UnmarshalBinary data).2 = true → (recv.UnmarshalBinary data).1 = recv) ∧
    ((recv.UnmarshalBinary data).2 = false →
      (recv.UnmarshalBinary data).1.MarshalBinary = data) := by
  unfold treeInfo.UnmarshalBinary
  cases h1 : wireChopBytes data publicKeySize with
  | none =>
    have := (wireChopBytes_none _ _).1 h1
    unfold publicKeySize at this
    simp [this]
  | some p1 =>
    obtain ⟨root, data1⟩ := p1
    have s1 := wireChopBytes_some _ _ _ _ h1
    unfold publicKeySize at s1
    obtain ⟨i1, i2⟩ := unmarshalHops_spec data1.length [] data1 (le_refl _)
    simp only
    cases h2 : unmarshalHops data1.length [] data1 with
    | none =>
      have := i1.1 h2
      rw [s1.2.2.2] at this
      simp only [true_iff, forall_true_left, Bool.true_eq_false, false_implies, and_true]
      exact Or.inr this
    | some hops =>
      obtain ⟨new, e1, e2⟩ := i2 hops h2
      have hne : ¬ data1.length % 96 ≠ 0 := fun hc => by
        have := i1.2 hc
        rw [h2] at this
        exact absurd this (by simp)
      rw [s1.2.2.2] at hne
      simp only [Bool.false_eq_true, false_iff, false_implies, forall_true_left, true_and,
        not_or, not_lt]
      refine ⟨⟨s1.1, hne⟩, ?_⟩
      rw [marshal_eq]
      simp only [List.nil_append] at e1
      rw [e1, e2, ← s1.2.2.1]

/-! ## Nonce increment -/

theorem foldl_be (xs : List Nat) (acc : Nat) :
    xs.foldl (fun a b => a * 256 + b) acc = acc * 256 ^ xs.length + beValue xs := by
  induction xs generalizing acc with
  | nil => simp [beValue]
  | cons x xs ih =>
    unfold beValue
    rw [List.foldl_cons, List.foldl_cons, ih, ih (0 * 256 + x)]
    simp only [List.length_cons, pow_succ]
    ring

theorem beValue_cons (x : Nat) (xs : List Nat) :
    beValue (x :: xs) = x * 256 ^ xs.length + beValue xs := by
  conv_lhs => unfold beValue
  rw [List.foldl_cons, foldl_be]
  simp

theorem beValue_append_singleton (xs : List Nat) (b : Nat) :
    beValue (xs ++ [b]) = beValue xs * 256 + b := by
  unfold beValue
  rw [List.foldl_append]
  rfl

theorem beValue_reverse (l : List Nat) : beValue l.reverse = leValue l := by
  induction l with
  | nil => rfl
  | cons b rest ih =>
    rw [List.reverse_cons, beValue_append_singleton, ih, leValue]
    ring

theorem leValue_lt (l : List Nat) (h : ∀ b ∈ l, b < 256) : leValue l < 256 ^ l.length := by
  induction l with
  | nil => simp [leValue]
  | cons b rest ih =>
    have hb := h b (List.mem_cons_self _ _)
    have := ih (fun x hx => h x (List.mem_cons_of_mem _ hx))
    simp only [leValue, List.length_cons, pow_succ]
    omega

theorem incFromLast_length (l : List Nat) : (incFromLast l).length = l.length := by
  induction l with
  | nil => rfl
  | cons b rest ih =>
    unfold incFromLast
    split <;> simp [ih]

theorem incFromLast_bytes (l : List Nat) (h : ∀ b ∈ l, b < 256) :
    ∀ b ∈ incFromLast l, b < 256 := by
  induction l with
  | nil => intro b hb; simp [incFromLast] at hb
  | cons x rest ih =>
    have hrest : ∀ b ∈ rest, b < 256 := fun b hb => h b (List.mem_cons_of_mem _ hb)
    intro b hb
    unfold incFromLast at hb
    split at hb
    · rcases List.mem_cons.1 hb with e | hm
      · rw [e]; exact Nat.mod_lt _ (by decide)
      · exact hrest b hm
    · rcases List.mem_cons.1 hb with e | hm
      · rw [e]; exact Nat.mod_lt _ (by decide)
      · exact ih hrest b hm

/-- The loop of `inc` adds one modulo `256 ^ length`. -/
theorem leValue_incFromLast (l : List Nat) (h : ∀ b ∈ l, b < 256) :
    leValue (incFromLast l) = (leValue l + 1) % 256 ^ l.length := by
  induction l with
  | nil => simp [incFromLast, leValue]
  | cons b rest ih =>
    have hb := h b (List.mem_cons_self _ _)
    have hrest : ∀ x ∈ rest, x < 256 := fun x hx => h x (List.mem_cons_of_mem _ hx)
    have hlt := leValue_lt rest hrest
    have ih2 := ih hrest
    unfold incFromLast
    by_cases h255 : b = 255
    · subst h255
      simp only [Nat.reduceAdd, Nat.mod_self, ne_eq, not_true_eq_false, if_false, leValue,
        List.length_cons, ih2, zero_add]
      have e : 255 + 256 * leValue rest + 1 = 256 * (leValue rest + 1) := by ring
      rw [e, pow_succ, Nat.mul_comm (256 ^ rest.length) 256, Nat.mul_mod_mul_left]
    · have hm : (b + 1) % 256 = b + 1 := Nat.mod_eq_of_lt (by omega)
      have hne : (b + 1) % 256 ≠ 0 := by rw [hm]; omega
      rw [if_pos hne, hm]
      simp only [leValue, List.length_cons, pow_succ]
      rw [Nat.mod_eq_of_lt (by omega)]
      omega

theorem beValue_lt (l : List Nat) (h : ∀ b ∈ l, b < 256) : beValue l < 256 ^ l.length := by
  have := leValue_lt l.reverse (fun b hb => h b (List.mem_reverse.1 hb))
  rw [← beValue_reverse, List.reverse_reverse, List.length_reverse] at this
  exact this

/-- On byte sequences of one length `lessThan` is the comparison of the
big-endian values. -/
theorem lessThan_iff_beValue (a b : List Nat) (hl : a.length = b.length)
    (ha : ∀ x ∈ a, x < 256) (hb : ∀ x ∈ b, x < 256) :
    boxNonce.lessThan a b = decide (beValue a < beValue b) := by
  induction a generalizing b with
  | nil =>
    cases b with
    | nil => simp [boxNonce.lessThan, beValue]
    | cons y ys => simp at hl
  | cons x xs ih =>
    cases b with
    | nil => simp at hl
    | cons y ys =>
      simp only [List.length_cons, Nat.add_right_cancel_iff] at hl
      have hxs : ∀ z ∈ xs, z < 256 := fun z hz => ha z (List.mem_cons_of_mem _ hz)
      have hys : ∀ z ∈ ys, z < 256 := fun z hz => hb z (List.mem_cons_of_mem _ hz)
      have bx := beValue_lt xs hxs
      have bys := beValue_lt ys hys
      rw [hl] at bx
      rw [beValue_cons, beValue_cons, hl]
      simp only [boxNonce.lessThan]
      by_cases h1 : x < y
      · rw [if_pos h1]
        have h2 : (x + 1) * 256 ^ ys.length ≤ y * 256 ^ ys.length :=
          Nat.mul_le_mul_right _ h1
        rw [Nat.add_mul, Nat.one_mul] at h2
        symm
        rw [decide_eq_true_eq]
        omega
      · rw [if_neg h1]
        by_cases h3 : x > y
        · rw [if_pos h3]
          have h2 : (y + 1) * 256 ^ ys.length ≤ x * 256 ^ ys.length :=
            Nat.mul_le_mul_right _ h3
          rw [Nat.add_mul, Nat.one_mul] at h2
          symm
          rw [decide_eq_false_iff_not]
          omega
        · rw [if_neg h3]
          have e : x = y := by omega
          subst e
          rw [ih ys hl hxs hys]
          simp

/-- Only the all-`0xff` sequence has the largest value. -/
theorem beValue_max (l : List Nat) (h : ∀ b ∈ l, b < 256)
    (hv : beValue l + 1 = 256 ^ l.length) : l = List.replicate l.length 255 := by
  induction l with
  | nil => rfl
  | cons x xs ih =>
    have hx := h x (List.mem_cons_self _ _)
    have hxs : ∀ z ∈ xs, z < 256 := fun z hz => h z (List.mem_cons_of_mem _ hz)
    have bx := beValue_lt xs hxs
    rw [beValue_cons, List.length_cons, pow_succ] at hv
    have h255 : x = 255 := by
      by_contra hne
      have h2 : x * 256 ^ xs.length ≤ 254 * 256 ^ xs.length :=
        Nat.mul_le_mul_right _ (by omega)
      omega
    subst h255
    have hv2 : beValue xs + 1 = 256 ^ xs.length := by omega
    rw [List.length_cons, List.replicate_succ, ← ih hxs hv2]

theorem beValue_inc (n : List Nat) (h : ∀ b ∈ n, b < 256) :
    beValue (boxNonce.inc n) = (beValue n + 1) % 256 ^ n.length := by
  unfold boxNonce.inc
  rw [beValue_reverse, leValue_incFromLast _ (fun b hb => h b (List.mem_reverse.1 hb)),
    ← beValue_reverse, List.reverse_reverse, List.length_reverse]

/-- C20: reading a 24-byte nonce as a big-endian unsigned integer, `inc` replaces
it by its successor modulo `2^192` (and leaves a 24-byte nonce); so for every
nonce `n` that is not all `0xff`, `n.lessThan(inc n)` is true, and `inc` of the
all-`0xff` nonce is the all-zero nonce. -/
theorem inc_is_successor (n : boxNonce) (h : IsNonce n) :
    beValue (boxNonce.inc n) = (beValue n + 1) % 2 ^ 192 ∧
    IsNonce (boxNonce.inc n) ∧
    (n ≠ List.replicate 24 255 → boxNonce.lessThan n (boxNonce.inc n) = true) ∧
    boxNonce.inc (List.replicate 24 255) = List.replicate 24 0 := by
  obtain ⟨hlen, hb⟩ := h
  unfold boxNonceSize at hlen
  have hpow : (256 : Nat) ^ 24 = 2 ^ 192 := by norm_num
  have hval := beValue_inc n hb
  rw [hlen, hpow] at hval
  have hlen2 : (boxNonce.inc n).length = 24 := by
    unfold boxNonce.inc
    rw [List.length_reverse, incFromLast_length, List.length_reverse, hlen]
  have hb2 : ∀ b ∈ boxNonce.inc n, b < 256 := by
    intro b hm
    unfold boxNonce.inc at hm
    exact incFromLast_bytes _ (fun x hx => hb x (List.mem_reverse.1 hx)) b
      (List.mem_reverse.1 hm)
  refine ⟨hval, ⟨hlen2, hb2⟩, ?_, by decide⟩
  intro hne
  rw [lessThan_iff_beValue n _ (by rw [hlen, hlen2]) hb hb2, decide_eq_true_eq, hval]
  have hlt := beValue_lt n hb
  rw [hlen, hpow] at hlt
  have hne2 : beValue n + 1 ≠ 2 ^ 192 := by
    intro e
    apply hne
    have := beValue_max n hb (by rw [hlen, hpow]; exact e)
    rw [hlen] at this
    exact this
  rw [Nat.mod_eq_of_lt (by omega)]
  omega

/-- C20 instance: the nonce ending in the bytes `1, 255, 255` becomes the nonce
ending in `2, 0, 0`, which is greater. -/
theorem inc_is_successor_witness :
    boxNonce.inc (List.replicate 21 0 ++ [1, 255, 255]) = List.replicate 21 0 ++ [2, 0, 0] ∧
    boxNonce.lessThan (List.replicate 21 0 ++ [1, 255, 255])
      (boxNonce.inc (List.replicate 21 0 ++ [1, 255, 255])) = true :=
  ⟨by decide,
   (inc_is_successor (List.replicate 21 0 ++ [1, 255, 255]) (by decide)).2.2.1 (by decide)⟩
